import Mathlib

/-!
# Verification of the AIFM container reference implementation

A shallow embedding of `aifm_converter.py` and `aifm_reader.py` from the
AIFX reference implementation, together with theorems settling the frozen
claims about the write path (packaging, manifest, checksum ledger) and the
read path (ledger parsing, payload verification).

Modelling conventions:
* File contents (byte sequences) are modelled as Lean `String`s; a `Char`
  plays the role of one byte / code point.  UTF-8 encoding/decoding at the
  archive boundary (with `errors="replace"`) is the identity on the text
  issued by the writer and is modelled as such.
* `hashlib.sha256(...).hexdigest()` is an external library function; it is
  modelled as an explicit function parameter `hash : String → String`.
  Both `sha256_file` (streamed) and `sha256_bytes` compute the same digest
  of the same content, hence a single abstract function.  Where a claim
  needs the hashlib output contract (64 lowercase hex characters) it is an
  explicit hypothesis (`HexDigest`).
* Python string builtins used by the source (`str.strip`, `str.split`,
  `str.splitlines`, `posixpath.normpath`, `pathlib.Path.suffix`, ...) are
  re-implemented below on `List Char`, following the CPython semantics for
  the character ranges involved.
* `zipfile.ZipFile`'s name table maps a name to the *last* entry written
  under that name; `zf.read` is modelled accordingly (`zread`).
-/

namespace AIFM

/-! ## Character classes (CPython `str.isspace`, `str.splitlines`) -/

/-- The characters CPython `str.splitlines` treats as line boundaries. -/
def lineBreakChars : List Char :=
  ['\n', '\r', '\x0b', '\x0c', '\x1c', '\x1d', '\x1e', '\x85', '\u2028', '\u2029']

def isLineBreak (c : Char) : Bool := lineBreakChars.contains c

/-- The characters CPython `str.isspace` (hence `str.strip()` / `str.split()`)
treats as whitespace. -/
def pySpaceChars : List Char :=
  [' ', '\t', '\n', '\r', '\x0b', '\x0c', '\x1c', '\x1d', '\x1e', '\x1f',
   '\x85', '\xa0', '\u1680', '\u2000', '\u2001', '\u2002', '\u2003', '\u2004',
   '\u2005', '\u2006', '\u2007', '\u2008', '\u2009', '\u200a', '\u2028',
   '\u2029', '\u202f', '\u205f', '\u3000']

def pyIsSpace (c : Char) : Bool := pySpaceChars.contains c

/-- Lowercase hexadecimal digits, the alphabet of `hexdigest()`. -/
def lowerHexChars : List Char := "0123456789abcdef".data

def isLowerHex (c : Char) : Bool := lowerHexChars.contains c

theorem isLineBreak_pyIsSpace {c : Char} (h : isLineBreak c = true) :
    pyIsSpace c = true := by
  simp [isLineBreak, lineBreakChars] at h
  rcases h with rfl | rfl | rfl | rfl | rfl | rfl | rfl | rfl | rfl | rfl <;> decide

theorem isLowerHex_not_space {c : Char} (h : isLowerHex c = true) :
    pyIsSpace c = false := by
  simp [isLowerHex, lowerHexChars] at h
  rcases h with rfl | rfl | rfl | rfl | rfl | rfl | rfl | rfl | rfl | rfl | rfl
    | rfl | rfl | rfl | rfl | rfl <;> decide

theorem isLowerHex_not_break {c : Char} (h : isLowerHex c = true) :
    isLineBreak c = false := by
  simp [isLowerHex, lowerHexChars] at h
  rcases h with rfl | rfl | rfl | rfl | rfl | rfl | rfl | rfl | rfl | rfl | rfl
    | rfl | rfl | rfl | rfl | rfl <;> decide

theorem isLowerHex_ne_space {c : Char} (h : isLowerHex c = true) : c ≠ ' ' := by
  intro hc
  subst hc
  simp [isLowerHex, lowerHexChars] at h

/-! ## CPython string primitives on `List Char` -/

/-- `str.splitlines`, accumulator-based.  `acc` holds the current line in
reverse; a `"\r\n"` pair counts as a single boundary. -/
def splitlinesGo (acc : List Char) : List Char → List (List Char)
  | [] => if acc.isEmpty then [] else [acc.reverse]
  | '\r' :: '\n' :: cs => acc.reverse :: splitlinesGo [] cs
  | c :: cs =>
      if isLineBreak c then acc.reverse :: splitlinesGo [] cs
      else splitlinesGo (c :: acc) cs

/-- `text.splitlines()`. -/
def splitlinesL (cs : List Char) : List (List Char) := splitlinesGo [] cs

/-- `str.strip()` (no argument): remove leading and trailing whitespace. -/
def stripL (cs : List Char) : List Char :=
  ((cs.dropWhile pyIsSpace).reverse.dropWhile pyIsSpace).reverse

/-- `line.split("  ", 1)`: split at the first occurrence of two consecutive
ASCII spaces, if any. -/
def splitTwoSpace : List Char → Option (List Char × List Char)
  | ' ' :: ' ' :: cs => some ([], cs)
  | c :: cs => (splitTwoSpace cs).map (fun r => (c :: r.1, r.2))
  | [] => none

/-- `str.split()` (no argument): whitespace-run tokenization, no empty
tokens.  `acc` holds the current token in reverse. -/
def pySplitGo (acc : List Char) : List Char → List (List Char)
  | [] => if acc.isEmpty then [] else [acc.reverse]
  | c :: cs =>
      if pyIsSpace c then
        if acc.isEmpty then pySplitGo [] cs else acc.reverse :: pySplitGo [] cs
      else pySplitGo (c :: acc) cs

def pySplit (cs : List Char) : List (List Char) := pySplitGo [] cs

/-- `str.split('/')` (keeps empty components). -/
def splitSlash : List Char → List (List Char)
  | [] => [[]]
  | '/' :: cs => [] :: splitSlash cs
  | c :: cs =>
      match splitSlash cs with
      | r :: rs => (c :: r) :: rs
      | [] => [[c]]

/-- `sep.join(xs)`. -/
def joinSep (sep : List Char) : List (List Char) → List Char
  | [] => []
  | [x] => x
  | x :: xs => x ++ sep ++ joinSep sep xs

/-- `"\n".join(lines)` on strings. -/
def joinLines : List String → String
  | [] => ""
  | [l] => l
  | l :: ls => l ++ "\n" ++ joinLines ls

/-- `str.lower()` (the source only lowercases ASCII hex digests and file
extensions; modelled with `Char.toLower`, which lowercases ASCII). -/
def lowerStr (s : String) : String := String.mk (s.data.map Char.toLower)

/-! ## `posixpath` / `pathlib` primitives -/

/-- One step of `posixpath.join`: absorb the next component `b`. -/
def pjoin2 (a b : String) : String :=
  if b.data.head? = some '/' then b
  else if a.data = [] ∨ a.data.getLast? = some '/' then a ++ b
  else a ++ "/" ++ b

/-- `posixpath.join(parts[0], *parts[1:])`. -/
def pjoin : List String → String
  | [] => ""
  | p :: ps => ps.foldl pjoin2 p

/-- The body of the component loop of CPython `posixpath.normpath`:
skip empty and `.` components, push normal components, and let `..` pop the
last pushed component unless there is nothing (legally) to pop. -/
def normStep (initSlash : Bool) (acc : List (List Char)) (comp : List Char) :
    List (List Char) :=
  if comp = [] ∨ comp = ['.'] then acc
  else if comp ≠ ['.', '.'] ∨ (initSlash = false ∧ acc = []) ∨
      acc.getLast? = some ['.', '.'] then
    acc ++ [comp]
  else if acc ≠ [] then acc.dropLast
  else acc

/-- CPython `posixpath.normpath`. -/
def normpath (p : String) : String :=
  if p = "" then "."
  else
    let initSlash : Bool := p.data.head? == some '/'
    let nSlash : Nat :=
      if initSlash then
        if p.data.take 2 = ['/', '/'] ∧ p.data.take 3 ≠ ['/', '/', '/'] then 2 else 1
      else 0
    let newComps := (splitSlash p.data).foldl (normStep initSlash) []
    let joined := String.mk (List.replicate nSlash '/' ++ joinSep ['/'] newComps)
    if joined = "" then "." else joined

/-- `str.lstrip("/")`. -/
def lstripSlash (s : String) : String := String.mk (s.data.dropWhile (fun c => c = '/'))

/-- `pathlib.PurePath.name`: the final path component (modelled for path
strings without a trailing slash, as handed over by the CLI layer). -/
def pathName (p : String) : String :=
  String.mk ((p.data.reverse.takeWhile (fun c => c ≠ '/')).reverse)

/-- `pathlib.PurePath.suffix` of a file name: CPython returns the substring
from the last dot on, provided that dot is neither the first nor the last
character of the name. -/
def nameSuffix (name : List Char) : List Char :=
  match name.reverse.findIdx? (fun c => c = '.') with
  | none => []
  | some j =>
      let i := name.length - 1 - j
      if 0 < i ∧ i < name.length - 1 then name.drop i else []

def pathSuffix (p : String) : String := String.mk (nameSuffix (pathName p).data)

/-- `pathlib.PurePath.with_suffix` (modelled for paths with a nonempty final
component, on which CPython does not raise): drop the current suffix of the
name, append the new one. -/
def withSuffix (p suf : String) : String :=
  String.mk (p.data.take (p.data.length - (pathSuffix p).data.length)) ++ suf

/-! ## Code-point lexicographic order (Python string `<` / `sorted`) -/

/-- Python string `<`: lexicographic comparison by code point. -/
def lexLtB : List Char → List Char → Bool
  | _, [] => false
  | [], _ :: _ => true
  | x :: xs, y :: ys => if x < y then true else if y < x then false else lexLtB xs ys

def lexLeB (a b : List Char) : Bool := !(lexLtB b a)

/-- `sorted(entries, key=lambda x: x[0])` for `(zip_path, payload)` pairs:
a stable ascending sort by the first component. -/
def sortByPath (entries : List (String × String)) : List (String × String) :=
  List.insertionSort (fun a b => lexLeB a.1.data b.1.data = true) entries

/-! ## `aifm_converter.py`: `normalize_zip_path` -/

/-- `normalize_zip_path(*parts)` from `aifm_converter.py`:
`posixpath.normpath(posixpath.join(*parts)).lstrip("/")`. -/
def normalize_zip_path (parts : List String) : String :=
  lstripSlash (normpath (pjoin parts))

/-! ## `aifm_reader.py`: ledger parsing and payload verification -/

/-- One iteration of the line loop of `parse_sha256sum`: strip the line, skip
it if blank, split at the first `"  "` if present, else fall back to
whitespace tokens and keep the first two; lines with fewer than two tokens
yield nothing. -/
def parseLine (line0 : List Char) : Option (String × String) :=
  if (stripL line0).isEmpty then none
  else
    match splitTwoSpace (stripL line0) with
    | some (h, p) => some (String.mk (stripL h), String.mk (stripL p))
    | none =>
        match pySplit (stripL line0) with
        | a :: b :: _ => some (String.mk a, String.mk b)
        | _ => none

def parseLoop : List (List Char) → List (String × String)
  | [] => []
  | l :: ls =>
      match parseLine l with
      | some e => e :: parseLoop ls
      | none => parseLoop ls

/-- `parse_sha256sum(text)` from `aifm_reader.py`: the list of
`(expected_hash, zip_path)` pairs, in line order. -/
def parse_sha256sum (text : String) : List (String × String) :=
  parseLoop (splitlinesL text.data)

/-- One archive member: name, stored bytes, and the ZipInfo timestamp. -/
structure ZipEntry where
  path : String
  content : String
  date_time : Nat × Nat × Nat × Nat × Nat × Nat
  deriving DecidableEq, Repr

/-- `zf.read(name)`: `zipfile`'s name table keeps, for each name, the info of
the last entry written under it; a missing name raises `KeyError` (`none`). -/
def zread (entries : List ZipEntry) (p : String) : Option String :=
  (entries.reverse.find? (fun e => e.path == p)).map ZipEntry.content

def missingMsg (p : String) : String :=
  "Missing payload file listed in checksums: " ++ p

def mismatchMsg (p expected actual : String) : String :=
  "Hash mismatch: " ++ p ++ "\n  expected: " ++ expected ++ "\n  actual:   " ++ actual

/-- The entry loop of `verify_payload_checksums`, accumulating the error
list: a missing payload file and a lowercase-compared digest mismatch each
append one error string. -/
def verifyLoop (hash : String → String) (entries : List ZipEntry) :
    List (String × String) → List String
  | [] => []
  | (expected, p) :: rest =>
      match zread entries p with
      | none => missingMsg p :: verifyLoop hash entries rest
      | some data =>
          let actual := hash data
          if lowerStr actual ≠ lowerStr expected then
            mismatchMsg p expected actual :: verifyLoop hash entries rest
          else verifyLoop hash entries rest

/-- `verify_payload_checksums(zf)` from `aifm_reader.py`; `none` models the
`KeyError` raised when the ledger itself is absent. -/
def verify_payload_checksums (hash : String → String) (entries : List ZipEntry) :
    Option (List String) :=
  (zread entries "verification/checksums.sha256").map
    (fun text => verifyLoop hash entries (parse_sha256sum text))

/-! ## JSON documents and `json.dumps(..., indent=2, ensure_ascii=False)` -/

inductive Json where
  | str (s : String)
  | bool (b : Bool)
  | arr (xs : List Json)
  | obj (kvs : List (String × Json))

def hexDigit (n : Nat) : Char := lowerHexChars.getD n '0'

/-- The escaping `json.dumps` applies inside string literals when
`ensure_ascii=False`: backslash, double quote, the named control escapes,
`\u00XX` for the remaining control characters, everything else verbatim. -/
def escapeJsonChar (c : Char) : List Char :=
  if c = '"' then ['\\', '"']
  else if c = '\\' then ['\\', '\\']
  else if c = '\n' then ['\\', 'n']
  else if c = '\t' then ['\\', 't']
  else if c = '\r' then ['\\', 'r']
  else if c = '\x08' then ['\\', 'b']
  else if c = '\x0c' then ['\\', 'f']
  else if c.toNat < 32 then
    ['\\', 'u', '0', '0', hexDigit (c.toNat / 16), hexDigit (c.toNat % 16)]
  else [c]

def quoteJson (s : String) : String :=
  "\"" ++ String.mk (s.data.map escapeJsonChar).flatten ++ "\""

def jsonIndent (lvl : Nat) : String := String.mk (List.replicate (2 * lvl) ' ')

mutual

/-- `json.dumps(j, indent=2, ensure_ascii=False)`, at nesting level `lvl`. -/
def dumpsJson : Json → Nat → String
  | Json.str s, _ => quoteJson s
  | Json.bool b, _ => if b then "true" else "false"
  | Json.arr [], _ => "[]"
  | Json.arr (x :: xs), lvl =>
      "[\n" ++ dumpsItems (x :: xs) (lvl + 1) ++ "\n" ++ jsonIndent lvl ++ "]"
  | Json.obj [], _ => "\x7b\x7d"
  | Json.obj (kv :: kvs), lvl =>
      "\x7b\n" ++ dumpsPairs (kv :: kvs) (lvl + 1) ++ "\n" ++ jsonIndent lvl ++ "\x7d"

def dumpsItems : List Json → Nat → String
  | [], _ => ""
  | [x], lvl => jsonIndent lvl ++ dumpsJson x lvl
  | x :: y :: xs, lvl =>
      jsonIndent lvl ++ dumpsJson x lvl ++ ",\n" ++ dumpsItems (y :: xs) lvl

def dumpsPairs : List (String × Json) → Nat → String
  | [], _ => ""
  | [(k, v)], lvl => jsonIndent lvl ++ quoteJson k ++ ": " ++ dumpsJson v lvl
  | (k, v) :: p :: kvs, lvl =>
      jsonIndent lvl ++ quoteJson k ++ ": " ++ dumpsJson v lvl ++ ",\n" ++
        dumpsPairs (p :: kvs) lvl

end

/-- `d.get(key)` on a JSON object (`None` when absent); Python dict keys are
unique and looked up directly, modelled by the first match. -/
def jlookup (j : Json) (k : String) : Option Json :=
  match j with
  | Json.obj kvs => kvs.lookup k
  | _ => none

/-- `d.get(key, default)` followed by f-string interpolation; every key read
this way by `build_readme` holds a JSON string in this code, so the string
payload is extracted (the default also covers an absent key). -/
def jgetStr (j : Json) (k : String) (d : String) : String :=
  match jlookup j k with
  | some (Json.str s) => s
  | _ => d

/-! ## `aifm_converter.py`: options, manifest, readme, ledger, archive -/

def AIFX_SPEC_VERSION : String := "0.1"
def AIFX_FORMAT_VERSION : String := "1.0"

/-- `ConvertOptions` from `aifm_converter.py`.  Each `Optional[Path]` field
carries the contents of the file when the path was supplied (the source
aborts before writing anything when a supplied path does not exist, so a
supplied path of a completed conversion always has contents); `stems`
carries the `(relative path, contents)` list that `iter_files_recursive`
enumerates beneath the stems directory. -/
structure ConvertOptions where
  audio_name : String
  audio_bytes : String
  out_path : String
  title : String
  description : String
  creation_mode : String
  tier : String
  author : String
  contact : String
  ownership_claim : Bool
  ai_systems : List String
  apps : List String
  toolchain_notes : String
  prompt : Option String
  negative_prompt : Option String
  lyrics : Option String
  stems : Option (List (String × String))
  persona : Option String
  declaration : Option String
  urls : List String

/-- `build_manifest(opts)`, with `now` the `utc_now_iso()` reading.  The
JSON object lists its keys in Python dict insertion order; conditional keys
are appended exactly when the source inserts them.  (`opts.description or ""`,
`opts.apps if opts.apps else []` and the analogous `ai_systems` guard are
the identity on strings/lists and are written so.) -/
def build_manifest (opts : ConvertOptions) (now : String) : Json :=
  Json.obj (
    [("aifx_format_version", Json.str AIFX_FORMAT_VERSION),
     ("aifx_spec_version", Json.str AIFX_SPEC_VERSION),
     ("format", Json.str "AIFM"),
     ("created_at", Json.str now),
     ("title", Json.str (if opts.title = "" then "Untitled" else opts.title)),
     ("description", Json.str opts.description),
     ("creation_mode", Json.str opts.creation_mode),
     ("human_authorship", Json.obj
       [("name", Json.str opts.author),
        ("role", Json.str "AI Content Director"),
        ("ownership_claim", Json.bool opts.ownership_claim),
        ("contact", Json.str opts.contact)]),
     ("ai_systems", Json.arr (opts.ai_systems.map (fun n =>
        Json.obj [("name", Json.str n), ("role", Json.str "generation")]))),
     ("toolchain", Json.obj
       [("apps", Json.arr (opts.apps.map Json.str)),
        ("notes", Json.str opts.toolchain_notes)]),
     ("inputs", Json.obj
       [("prompts_included", Json.bool (opts.prompt.isSome || opts.negative_prompt.isSome)),
        ("seeds_included", Json.bool false),
        ("source_assets_included", Json.bool false)]),
     ("verification", Json.obj
       [("tier", Json.str opts.tier),
        ("method", Json.str (if opts.tier = "SDA" then "self-declared" else "declared")),
        ("signing", Json.str "none")]),
     ("integrity", Json.obj
       [("hash_alg", Json.str "SHA-256"),
        ("checksums_ref", Json.str "verification/checksums.sha256")])]
    ++ (if opts.persona.isSome then
          [("persona_ref", Json.str "metadata/persona.txt")] else [])
    ++ (if opts.declaration.isSome then
          [("declaration", Json.obj
             [("type", Json.str "Creator-Declared"),
              ("text_ref", Json.str "metadata/declaration.txt")])] else [])
    ++ (if opts.lyrics.isSome then
          [("lyrics_ref", Json.str "metadata/lyrics.txt")] else [])
    ++ (if opts.prompt.isSome || opts.negative_prompt.isSome then
          [("prompt_refs", Json.obj
             [("prompt", Json.str
                (if opts.prompt.isSome then "metadata/prompt/prompt.txt" else "")),
              ("negative_prompt", Json.str
                (if opts.negative_prompt.isSome then "metadata/prompt/negative_prompt.txt"
                 else ""))])] else [])
    ++ [("stems_included", Json.bool opts.stems.isSome)]
    ++ (if opts.urls ≠ [] then
          [("public_attestation", Json.obj
             [("urls", Json.arr (opts.urls.map Json.str)),
              ("notes", Json.str "")])] else []))

/-- `build_readme(manifest)` from `aifm_converter.py`. -/
def build_readme (manifest : Json) : String :=
  let verification := (jlookup manifest "verification").getD (Json.obj [])
  let tier := jgetStr verification "tier" "SDA"
  let title := jgetStr manifest "title" "Untitled"
  let created_at := jgetStr manifest "created_at" ""
  "AIFX Container (AIFM)\n" ++
  "-------------------\n" ++
  "Title: " ++ title ++ "\n" ++
  "Created At (UTC): " ++ created_at ++ "\n" ++
  "Verification Tier: " ++ tier ++ "\n\n" ++
  "This container is a ZIP-based AIFX format.\n" ++
  "Authoritative metadata is in: metadata/manifest.json\n" ++
  "Integrity hashes are in: verification/checksums.sha256\n" ++
  "This README is non-authoritative.\n"

/-- `make_checksums_payload_only(payload_entries)`: one `"<digest>  <path>"`
line per entry, sorted by zip path, joined with newlines plus one final
newline.  `sha256_file` is the abstract `hash` applied to the file contents
carried in each entry. -/
def make_checksums_payload_only (hash : String → String)
    (payload_entries : List (String × String)) : String :=
  joinLines ((sortByPath payload_entries).map (fun e => hash e.2 ++ "  " ++ e.1)) ++ "\n"

/-- `audio.suffix.lower().lstrip(".") or "wav"` from `convert_aifm`. -/
def audioExt (audioName : String) : String :=
  let e := String.mk ((lowerStr (pathSuffix audioName)).data.dropWhile (fun c => c = '.'))
  if e = "" then "wav" else e

/-- The canonical primary-asset path `payload/audio/main.<ext>`. -/
def audio_zip_path (opts : ConvertOptions) : String :=
  normalize_zip_path ["payload", "audio", "main." ++ audioExt opts.audio_name]

/-- The stems mapping of `convert_aifm`: each enumerated file at relative
path `rel` goes to `payload/stems/<rel>` (separators already forward
slashes).  `iter_files_recursive` enumerates in sorted `Path` order; the
enumeration order is irrelevant to every produced byte because both
consumers (the ledger and the write loop) re-sort by zip path, so the
list is taken as given. -/
def stems_files (opts : ConvertOptions) : List (String × String) :=
  (opts.stems.getD []).map (fun f => (normalize_zip_path ["payload", "stems", f.1], f.2))

/-- The payload entry set of `convert_aifm`: primary audio, then stems. -/
def payload_entries (opts : ConvertOptions) : List (String × String) :=
  (audio_zip_path opts, opts.audio_bytes) :: stems_files opts

/-- `zip_write_bytes` / `zip_write_file`: both store the given bytes at
`arcname` with the timestamp pinned to `(1980, 1, 1, 0, 0, 0)` (DEFLATE is
lossless, so the stored payload bytes are the source bytes). -/
def zip_write (arcname : String) (data : String) : ZipEntry :=
  ZipEntry.mk arcname data (1980, 1, 1, 0, 0, 0)

/-- The output-path fixup of `convert_aifm`: replace the suffix with `.aifm`
unless it is already `.aifm` case-insensitively. -/
def fixupOut (out : String) : String :=
  if lowerStr (pathSuffix out) = ".aifm" then out else withSuffix out ".aifm"

/-- The conditional `if opts.x_path: zip_write_file(zf, arcname, x_path)`
writes of `convert_aifm`: one entry when the asset was supplied, none
otherwise. -/
def opt_entry (arcname : String) : Option String → List ZipEntry
  | some data => [zip_write arcname data]
  | none => []

/-- The metadata / verification / README tail of the archive, in write
order: manifest, the supplied optional text assets, the checksum ledger,
the README. -/
def tail_entries (hash : String → String) (opts : ConvertOptions) (now : String) :
    List ZipEntry :=
  let manifest := build_manifest opts now
  [zip_write (normalize_zip_path ["metadata", "manifest.json"]) (dumpsJson manifest 0)]
  ++ opt_entry (normalize_zip_path ["metadata", "prompt", "prompt.txt"]) opts.prompt
  ++ opt_entry (normalize_zip_path ["metadata", "prompt", "negative_prompt.txt"])
       opts.negative_prompt
  ++ opt_entry (normalize_zip_path ["metadata", "lyrics.txt"]) opts.lyrics
  ++ opt_entry (normalize_zip_path ["metadata", "persona.txt"]) opts.persona
  ++ opt_entry (normalize_zip_path ["metadata", "declaration.txt"]) opts.declaration
  ++ [zip_write (normalize_zip_path ["verification", "checksums.sha256"])
        (make_checksums_payload_only hash (payload_entries opts)),
      zip_write "README.txt" (build_readme manifest)]

/-- The result of a conversion: the output path actually written and the
archive entries in write order. -/
structure Archive where
  out : String
  entries : List ZipEntry

/-- `convert_aifm(opts)` from `aifm_converter.py`.  The existence checks of
the source are modelled by `ConvertOptions` carrying the contents of every
supplied file; `now` is the `utc_now_iso()` reading taken while building the
manifest.  Write order: primary audio, stems sorted by zip path, manifest,
optional text assets, ledger, README. -/
def convert_aifm (hash : String → String) (opts : ConvertOptions) (now : String) :
    Archive :=
  Archive.mk (fixupOut opts.out_path)
    (zip_write (audio_zip_path opts) opts.audio_bytes
      :: ((sortByPath (stems_files opts)).map (fun e => zip_write e.1 e.2)
        ++ tail_entries hash opts now))

/-! ## Input-sanity predicates

These Boolean predicates translate the facts the operating system guarantees
about real inputs (file names contain no line-break characters, relative
paths produced by `rglob`/`relative_to` have normal nonempty components) and
the `hashlib` output contract.  They are the "valid input set" hypotheses of
the claims. -/

/-- A usable archive path: nonempty, no line-break characters, and no
leading or trailing Python whitespace (so the reader's `strip()` returns it
unchanged). -/
def sanePathB (s : String) : Bool :=
  !s.data.isEmpty &&
  s.data.all (fun c => !isLineBreak c) &&
  !(pyIsSpace (s.data.headD 'x')) &&
  !(pyIsSpace (s.data.getLastD 'x'))

/-- A usable digest string: nonempty and free of Python whitespace. -/
def saneDigestB (s : String) : Bool :=
  !s.data.isEmpty && s.data.all (fun c => !pyIsSpace c)

/-- The `hashlib.sha256(...).hexdigest()` output contract: 64 lowercase
hexadecimal characters, for every input. -/
def HexDigest (hash : String → String) : Prop :=
  ∀ s : String, (hash s).data.length = 64 ∧ ∀ c ∈ (hash s).data, isLowerHex c = true

/-- A relative path as produced by `rglob` + `relative_to`: splitting on
`/` yields only normal components (nonempty, not `.`, not `..`); character
sanity as for archive paths. -/
def saneRelB (s : String) : Bool :=
  (splitSlash s.data).all (fun comp =>
    !comp.isEmpty && comp ≠ ['.'] && comp ≠ ['.', '.']) &&
  sanePathB s

/-- Sanity of the derived audio extension (`audioExt` output): nonempty,
no slash, not a dot component, character-sane. -/
def saneExtB (s : String) : Bool :=
  !s.data.isEmpty && s.data.all (fun c => c ≠ '/' && !pyIsSpace c && !isLineBreak c)

theorem hexDigest_sane {hash : String → String} (h : HexDigest hash) (s : String) :
    saneDigestB (hash s) = true := by
  obtain ⟨hlen, hhex⟩ := h s
  simp only [saneDigestB, Bool.and_eq_true, List.all_eq_true]
  constructor
  · cases hd : (hash s).data with
    | nil => rw [hd] at hlen; simp at hlen
    | cons a l => simp [hd]
  · intro c hc
    simp [isLowerHex_not_space (hhex c hc)]

/-! ## Library bridge lemmas -/

theorem data_append (a b : String) : (a ++ b).data = a.data ++ b.data :=
  String.data_append a b

theorem mk_data (s : String) : String.mk s.data = s := rfl

/-! ## `splitlinesL` lemmas -/

theorem splitlinesGo_cons_nb (acc : List Char) (c : Char) (cs : List Char)
    (h : isLineBreak c = false) :
    splitlinesGo acc (c :: cs) = splitlinesGo (c :: acc) cs := by
  have hcr : c ≠ '\r' := by
    intro hcr
    subst hcr
    simp [isLineBreak, lineBreakChars] at h
  rw [splitlinesGo.eq_def]
  split
  · rename_i heq
    exact absurd heq (by simp)
  · rename_i cs2 heq
    rw [List.cons.injEq] at heq
    exact absurd heq.1 hcr
  · rename_i c2 cs2 hno heq
    injection heq with h1 h2
    subst h1
    subst h2
    rw [h]
    simp

theorem splitlinesGo_cons_nl (acc : List Char) (cs : List Char) :
    splitlinesGo acc ('\n' :: cs) = acc.reverse :: splitlinesGo [] cs := by
  rw [splitlinesGo.eq_def]
  split
  · rename_i heq
    exact absurd heq (by simp)
  · rename_i cs2 heq
    rw [List.cons.injEq] at heq
    exact absurd heq.1 (by decide)
  · rename_i c2 cs2 hno heq
    injection heq with h1 h2
    subst h1
    subst h2
    rw [show isLineBreak '\n' = true from by decide]
    simp

theorem splitlinesGo_newline (l : List Char) (acc rest : List Char)
    (h : ∀ c ∈ l, isLineBreak c = false) :
    splitlinesGo acc (l ++ '\n' :: rest) = (acc.reverse ++ l) :: splitlinesGo [] rest := by
  induction l generalizing acc with
  | nil =>
      rw [List.nil_append, splitlinesGo_cons_nl]
      simp
  | cons c cs ih =>
      have hc : isLineBreak c = false := h c (by simp)
      rw [List.cons_append, splitlinesGo_cons_nb _ _ _ hc,
        ih (c :: acc) (fun x hx => h x (by simp [hx]))]
      simp

/-- `splitlines` of newline-terminated, newline-joined lines recovers the
lines (the empty text yields no lines, a bare final newline closes the last
line without opening a new one). -/
theorem splitlinesL_joinLines (lines : List String)
    (h : ∀ l ∈ lines, ∀ c ∈ l.data, isLineBreak c = false) (hne : lines ≠ []) :
    splitlinesL ((joinLines lines ++ "\n").data) = lines.map String.data := by
  induction lines with
  | nil => exact absurd rfl hne
  | cons l ls ih =>
      cases ls with
      | nil =>
          simp only [joinLines, splitlinesL, data_append]
          rw [splitlinesGo_newline _ _ _ (h l (by simp))]
          simp [show splitlinesGo [] [] = [] from rfl]
      | cons l2 ls2 =>
          simp only [joinLines, splitlinesL, data_append] at ih ⊢
          rw [List.append_assoc, List.append_assoc, List.singleton_append]
          rw [splitlinesGo_newline _ _ _ (h l (by simp))]
          simp only [List.reverse_nil, List.nil_append, List.map_cons, List.cons.injEq,
            true_and]
          have hrec := ih (fun x hx => h x (by simp [hx])) (by simp)
          rw [hrec]
          simp

/-! ## `stripL`, `splitTwoSpace`, `parseLine` lemmas -/

theorem dropWhile_id_of_head {p : Char → Bool} :
    ∀ l : List Char, (∀ c, l.head? = some c → p c = false) → l.dropWhile p = l
  | [], _ => rfl
  | c :: cs, h => by
      have := h c rfl
      simp [List.dropWhile_cons, this]

theorem stripL_id (l : List Char)
    (hhead : ∀ c, l.head? = some c → pyIsSpace c = false)
    (hlast : ∀ c, l.getLast? = some c → pyIsSpace c = false) :
    stripL l = l := by
  unfold stripL
  rw [dropWhile_id_of_head l hhead]
  rw [dropWhile_id_of_head l.reverse (fun c hc => hlast c (by
    rwa [List.head?_reverse] at hc))]
  exact List.reverse_reverse l

theorem splitTwoSpace_boundary : ∀ (d p : List Char), (∀ c ∈ d, c ≠ ' ') →
    splitTwoSpace (d ++ ' ' :: ' ' :: p) = some (d, p)
  | [], p, _ => rfl
  | c :: cs, p, h => by
      have hc : c ≠ ' ' := h c (by simp)
      rw [List.cons_append, splitTwoSpace.eq_def]
      split
      · rename_i heq
        rw [List.cons.injEq] at heq
        exact absurd heq.1 hc
      · rename_i c2 cs2 heq
        injection heq with h1 h2
        subst h1
        subst h2
        rw [splitTwoSpace_boundary cs p (fun x hx => h x (by simp [hx]))]
        rfl
      · rename_i heq
        exact absurd heq (by simp)

/-- Unpacking `saneDigestB`. -/
theorem saneDigestB_spec {s : String} (h : saneDigestB s = true) :
    s.data ≠ [] ∧ ∀ c ∈ s.data, pyIsSpace c = false := by
  simp only [saneDigestB, Bool.and_eq_true, List.all_eq_true, Bool.not_eq_true',
    List.isEmpty_eq_false] at h
  obtain ⟨h1, h2⟩ := h
  exact ⟨h1, fun c hc => by simpa using h2 c hc⟩

/-- Unpacking `sanePathB`. -/
theorem sanePathB_spec {s : String} (h : sanePathB s = true) :
    s.data ≠ [] ∧ (∀ c ∈ s.data, isLineBreak c = false) ∧
      (∀ c, s.data.head? = some c → pyIsSpace c = false) ∧
      (∀ c, s.data.getLast? = some c → pyIsSpace c = false) := by
  simp only [sanePathB, Bool.and_eq_true, List.all_eq_true, Bool.not_eq_true',
    List.isEmpty_eq_false] at h
  obtain ⟨⟨⟨h1, h2⟩, h3⟩, h4⟩ := h
  refine ⟨h1, fun c hc => by simpa using h2 c hc, ?_, ?_⟩
  · intro c hc
    cases hsd : s.data with
    | nil => rw [hsd] at hc; simp at hc
    | cons a l =>
        rw [hsd] at hc
        simp only [List.head?_cons, Option.some.injEq] at hc
        rw [hsd] at h3
        simpa [← hc] using h3
  · intro c hc
    rw [List.getLastD_eq_getLast?, hc] at h4
    simpa using h4

/-- A digest followed by the two-space separator followed by a sane path
parses back to exactly that pair. -/
theorem parseLine_render (d p : String)
    (hd : saneDigestB d = true) (hp : sanePathB p = true) :
    parseLine ((d ++ "  " ++ p).data) = some (d, p) := by
  obtain ⟨hdne, hdsp⟩ := saneDigestB_spec hd
  obtain ⟨hpne, hpbr, hph, hpl⟩ := sanePathB_spec hp
  have hdat : (d ++ "  " ++ p).data = d.data ++ ' ' :: ' ' :: p.data := by
    simp [data_append]
  rw [hdat]
  have hstrip : stripL (d.data ++ ' ' :: ' ' :: p.data) = d.data ++ ' ' :: ' ' :: p.data := by
    apply stripL_id
    · intro c hc
      rw [List.head?_append_of_ne_nil _ hdne] at hc
      exact hdsp c (List.mem_of_mem_head? hc)
    · intro c hc
      rw [List.getLast?_append_of_ne_nil _ (by simp [hpne])] at hc
      have : p.data.getLast? = some c := by
        cases hpd : p.data with
        | nil => exact absurd hpd hpne
        | cons a l => rw [hpd] at hc; simpa [hpd] using hc
      exact hpl c this
  unfold parseLine
  rw [hstrip]
  have hne2 : (d.data ++ ' ' :: ' ' :: p.data).isEmpty = false := by
    cases d.data <;> simp
  rw [hne2]
  simp only [Bool.false_eq_true, if_false]
  rw [splitTwoSpace_boundary d.data p.data
    (fun c hc => fun hsp => by subst hsp; exact absurd (hdsp _ hc) (by decide))]
  have hsd : stripL d.data = d.data :=
    stripL_id _ (fun c hc => hdsp c (List.mem_of_mem_head? hc))
      (fun c hc => hdsp c (List.mem_of_mem_getLast? hc))
  have hsp2 : stripL p.data = p.data := stripL_id _ hph hpl
  simp [hsd, hsp2, mk_data]

theorem parseLoop_eq_filterMap (ls : List (List Char)) :
    parseLoop ls = ls.filterMap parseLine := by
  induction ls with
  | nil => rfl
  | cons l ls ih =>
      cases hl : parseLine l <;> simp [parseLoop, hl, ih, List.filterMap_cons]

/-! ## The code-point order is a total preorder -/

theorem lexLtB_irrefl : ∀ l : List Char, lexLtB l l = false
  | [] => rfl
  | c :: cs => by simp [lexLtB, lexLtB_irrefl cs]

theorem lexLtB_trans : ∀ a b c : List Char,
    lexLtB a b = true → lexLtB b c = true → lexLtB a c = true
  | [], b, [], _, hbc => by
      cases b with
      | nil => simp [lexLtB] at hbc
      | cons y ys => simp [lexLtB] at hbc
  | [], _, _ :: _, _, _ => by simp [lexLtB]
  | x :: xs, [], c, hab, _ => by simp [lexLtB] at hab
  | x :: xs, y :: ys, [], _, hbc => by simp [lexLtB] at hbc
  | x :: xs, y :: ys, z :: zs, hab, hbc => by
      simp only [lexLtB] at hab hbc ⊢
      by_cases hxy : x < y
      · by_cases hyz : y < z
        · simp [lt_trans hxy hyz]
        · by_cases hzy : z < y
          · simp [hyz, hzy] at hbc
          · have hy : y = z := le_antisymm (not_lt.mp hzy) (not_lt.mp hyz)
            subst hy
            simp [hxy]
      · by_cases hyx : y < x
        · simp [hxy, hyx] at hab
        · have hx : x = y := le_antisymm (not_lt.mp hyx) (not_lt.mp hxy)
          subst hx
          simp only [lt_irrefl, if_false] at hab
          by_cases hxz : x < z
          · simp [hxz]
          · by_cases hzx : z < x
            · simp [hxz, hzx] at hbc
            · simp only [hxz, hzx, if_false] at hbc ⊢
              exact lexLtB_trans xs ys zs hab hbc

theorem lexLtB_eq_of_both_false : ∀ a b : List Char,
    lexLtB a b = false → lexLtB b a = false → a = b
  | [], [], _, _ => rfl
  | [], _ :: _, hab, _ => by simp [lexLtB] at hab
  | _ :: _, [], _, hba => by simp [lexLtB] at hba
  | x :: xs, y :: ys, hab, hba => by
      simp only [lexLtB] at hab hba
      by_cases hxy : x < y
      · simp [hxy] at hab
      · by_cases hyx : y < x
        · simp [hyx, hxy] at hba
        · have hx : x = y := le_antisymm (not_lt.mp hyx) (not_lt.mp hxy)
          subst hx
          simp only [lt_irrefl, if_false] at hab hba
          rw [lexLtB_eq_of_both_false xs ys hab hba]

theorem lexLtB_asymm {a b : List Char} (h : lexLtB a b = true) : lexLtB b a = false := by
  by_contra hba
  have hba2 : lexLtB b a = true := by
    cases hv : lexLtB b a with
    | false => exact absurd hv hba
    | true => rfl
  have := lexLtB_trans a b a h hba2
  rw [lexLtB_irrefl] at this
  exact Bool.false_ne_true this

theorem lexLeB_total (a b : List Char) : lexLeB a b = true ∨ lexLeB b a = true := by
  unfold lexLeB
  cases h : lexLtB b a with
  | false => left; rfl
  | true => right; rw [lexLtB_asymm h]; rfl

theorem lexLeB_trans {a b c : List Char} (hab : lexLeB a b = true)
    (hbc : lexLeB b c = true) : lexLeB a c = true := by
  unfold lexLeB at hab hbc ⊢
  rw [Bool.not_eq_true'] at hab hbc ⊢
  cases hcb : lexLtB c a with
  | false => rfl
  | true =>
      exfalso
      cases hbc2 : lexLtB b c with
      | true =>
          have := lexLtB_trans b c a hbc2 hcb
          rw [hab] at this
          exact Bool.false_ne_true this
      | false =>
          have hbceq : b = c := lexLtB_eq_of_both_false b c hbc2 hbc
          subst hbceq
          rw [hab] at hcb
          exact Bool.false_ne_true hcb

theorem sortByPath_perm (l : List (String × String)) : (sortByPath l).Perm l :=
  List.perm_insertionSort _ l

theorem sortByPath_sorted (l : List (String × String)) :
    List.Sorted (fun a b => lexLeB a.1.data b.1.data = true) (sortByPath l) := by
  haveI : IsTotal (String × String) (fun a b => lexLeB a.1.data b.1.data = true) :=
    ⟨fun a b => lexLeB_total a.1.data b.1.data⟩
  haveI : IsTrans (String × String) (fun a b => lexLeB a.1.data b.1.data = true) :=
    ⟨fun _ _ _ hab hbc => lexLeB_trans hab hbc⟩
  exact List.sorted_insertionSort _ l

/-! ## Round trip: rendering then parsing the ledger -/

theorem filterMap_eq_map_of_some {α β : Type} (f : α → Option β) (g : α → β)
    (l : List α) (h : ∀ a ∈ l, f a = some (g a)) : l.filterMap f = l.map g := by
  induction l with
  | nil => rfl
  | cons a as ih =>
      simp [List.filterMap_cons, h a (by simp), ih (fun x hx => h x (by simp [hx]))]

/-- The characters of a rendered ledger line are line-break free. -/
theorem renderLine_breakfree (hash : String → String) (e : String × String)
    (hd : saneDigestB (hash e.2) = true) (hp : sanePathB e.1 = true) :
    ∀ c ∈ (hash e.2 ++ "  " ++ e.1).data, isLineBreak c = false := by
  obtain ⟨_, hdsp⟩ := saneDigestB_spec hd
  obtain ⟨_, hpbr, _, _⟩ := sanePathB_spec hp
  intro c hc
  simp only [data_append] at hc
  rcases List.mem_append.mp hc with hc1 | hc2
  · rcases List.mem_append.mp hc1 with hc3 | hc4
    · cases hv : isLineBreak c with
      | false => rfl
      | true => exact absurd (hdsp c hc3) (by simp [isLineBreak_pyIsSpace hv])
    · have : c = ' ' := by simpa using hc4
      subst this
      decide
  · exact hpbr c hc2

/-- Parsing the rendered payload ledger returns exactly the digest/path
pairs, in ledger (sorted-by-path) order. -/
theorem parse_make (hash : String → String) (entries : List (String × String))
    (hd : ∀ e ∈ entries, saneDigestB (hash e.2) = true)
    (hp : ∀ e ∈ entries, sanePathB e.1 = true) :
    parse_sha256sum (make_checksums_payload_only hash entries)
      = (sortByPath entries).map (fun e => (hash e.2, e.1)) := by
  have hd2 : ∀ e ∈ sortByPath entries, saneDigestB (hash e.2) = true :=
    fun e he => hd e ((sortByPath_perm entries).mem_iff.mp he)
  have hp2 : ∀ e ∈ sortByPath entries, sanePathB e.1 = true :=
    fun e he => hp e ((sortByPath_perm entries).mem_iff.mp he)
  unfold parse_sha256sum make_checksums_payload_only
  cases hs : sortByPath entries with
  | nil =>
      simp only [List.map_nil, joinLines]
      decide
  | cons e es =>
      rw [hs] at hd2 hp2
      have hlines : splitlinesL
          ((joinLines ((e :: es).map (fun e => hash e.2 ++ "  " ++ e.1)) ++ "\n").data)
          = ((e :: es).map (fun e => hash e.2 ++ "  " ++ e.1)).map String.data := by
        apply splitlinesL_joinLines
        · intro l hl
          obtain ⟨x, hx, rfl⟩ := List.mem_map.mp hl
          exact renderLine_breakfree hash x (hd2 x hx) (hp2 x hx)
        · simp
      rw [hlines, parseLoop_eq_filterMap, List.filterMap_map, List.filterMap_map]
      exact filterMap_eq_map_of_some _ _ _
        (fun x hx => parseLine_render (hash x.2) x.1 (hd2 x hx) (hp2 x hx))

/-! ## Verification loop characterization and `zread` lemmas -/

/-- The discrepancy a single ledger entry `(expected digest, path)` gives
rise to: one missing-file error when the path is not in the archive, one
mismatch error (carrying expected and freshly computed digest) when the
lowercased digests differ, nothing when they agree. -/
def entryDiscrepancy (hash : String → String) (entries : List ZipEntry)
    (e : String × String) : Option String :=
  match zread entries e.2 with
  | none => some (missingMsg e.2)
  | some data =>
      if lowerStr (hash data) ≠ lowerStr e.1 then some (mismatchMsg e.2 e.1 (hash data))
      else none

theorem verifyLoop_eq_filterMap (hash : String → String) (entries : List ZipEntry)
    (es : List (String × String)) :
    verifyLoop hash entries es = es.filterMap (entryDiscrepancy hash entries) := by
  induction es with
  | nil => rfl
  | cons e rest ih =>
      obtain ⟨expected, p⟩ := e
      rw [verifyLoop, List.filterMap_cons]
      cases hz : zread entries p with
      | none => simp [entryDiscrepancy, hz, ih]
      | some data =>
          by_cases hne : lowerStr (hash data) ≠ lowerStr expected
          · simp [entryDiscrepancy, hz, hne, ih]
          · simp [entryDiscrepancy, hz, hne, ih]

theorem zread_eq_none (entries : List ZipEntry) (p : String)
    (h : ∀ e ∈ entries, e.path ≠ p) : zread entries p = none := by
  unfold zread
  rw [List.find?_eq_none.mpr]
  · rfl
  · intro e he
    simp only [beq_iff_eq]
    exact h e (List.mem_reverse.mp he)

theorem zread_eq_some (entries : List ZipEntry) (p c : String)
    (hmem : ∃ e ∈ entries, e.path = p ∧ e.content = c)
    (huniq : ∀ e ∈ entries, e.path = p → e.content = c) :
    zread entries p = some c := by
  unfold zread
  obtain ⟨e0, he0, hp0, _⟩ := hmem
  have hsome : (entries.reverse.find? (fun e => e.path == p)).isSome := by
    rw [List.find?_isSome]
    exact ⟨e0, List.mem_reverse.mpr he0, by simp [hp0]⟩
  cases hf : entries.reverse.find? (fun e => e.path == p) with
  | none => rw [hf] at hsome; simp at hsome
  | some e =>
      have hpe : e.path = p := by
        have := List.find?_some hf
        simpa using this
      have hme : e ∈ entries := List.mem_reverse.mp (List.mem_of_find?_eq_some hf)
      simp [huniq e hme hpe]

/-! ## `splitSlash` / `normpath` lemmas -/

/-- A path component: nonempty and neither `.` nor `..`. -/
def normalComp (c : List Char) : Bool := !c.isEmpty && c != ['.'] && c != ['.', '.']

theorem string_data_ext {s t : String} (h : s.data = t.data) : s = t := by
  cases s
  cases t
  exact congrArg String.mk h

theorem splitSlash_ne_nil : ∀ l : List Char, splitSlash l ≠ []
  | [] => by simp [splitSlash]
  | '/' :: cs => by simp [splitSlash]
  | c :: cs => by
      rw [splitSlash.eq_def]
      split
      · simp
      · simp
      · rename_i c2 cs2 hno heq
        cases hs : splitSlash cs2 <;> simp

theorem splitSlash_single : ∀ l : List Char, (∀ c ∈ l, c ≠ '/') → splitSlash l = [l]
  | [], _ => rfl
  | c :: cs, h => by
      have hc : c ≠ '/' := h c (by simp)
      rw [splitSlash.eq_def]
      split
      · rename_i heq
        exact absurd heq (by simp)
      · rename_i cs2 heq
        rw [List.cons.injEq] at heq
        exact absurd heq.1 hc
      · rename_i c2 cs2 hno heq
        injection heq with h1 h2
        subst h1
        subst h2
        rw [splitSlash_single cs (fun x hx => h x (by simp [hx]))]

theorem splitSlash_append (l rest : List Char) (h : ∀ c ∈ l, c ≠ '/') :
    splitSlash (l ++ '/' :: rest) = l :: splitSlash rest := by
  induction l with
  | nil =>
      rw [List.nil_append, splitSlash.eq_def]
      split
      · rename_i heq
        exact absurd heq (by simp)
      · rename_i cs2 heq
        rw [List.cons.injEq] at heq
        rw [heq.2]
      · rename_i c2 cs2 hno heq
        rw [List.cons.injEq] at heq
        exact absurd heq.1.symm (by simpa using hno)
  | cons c cs ih =>
      have hc : c ≠ '/' := h c (by simp)
      rw [List.cons_append, splitSlash.eq_def]
      split
      · rename_i heq
        exact absurd heq (by simp)
      · rename_i cs2 heq
        rw [List.cons.injEq] at heq
        exact absurd heq.1 hc
      · rename_i c2 cs2 hno heq
        injection heq with h1 h2
        subst h1
        subst h2
        rw [ih (fun x hx => h x (by simp [hx]))]

theorem joinSep_splitSlash : ∀ l : List Char, joinSep ['/'] (splitSlash l) = l
  | [] => rfl
  | '/' :: cs => by
      rw [show splitSlash ('/' :: cs) = [] :: splitSlash cs from rfl]
      cases hs : splitSlash cs with
      | nil => exact absurd hs (splitSlash_ne_nil cs)
      | cons r rs =>
          rw [joinSep]
          · rw [← hs, joinSep_splitSlash cs]
            rfl
          · simp
  | c :: cs => by
      by_cases hc : c = '/'
      · subst hc
        rw [show splitSlash ('/' :: cs) = [] :: splitSlash cs from rfl]
        cases hs : splitSlash cs with
        | nil => exact absurd hs (splitSlash_ne_nil cs)
        | cons r rs =>
            rw [joinSep]
            · rw [← hs, joinSep_splitSlash cs]
              rfl
            · simp
      · rw [splitSlash.eq_def]
        split
        · rename_i heq
          exact absurd heq (by simp)
        · rename_i cs2 heq
          rw [List.cons.injEq] at heq
          exact absurd heq.1 hc
        · rename_i c2 cs2 hno heq
          injection heq with h1 h2
          subst h1
          subst h2
          cases hs : splitSlash cs with
          | nil => exact absurd hs (splitSlash_ne_nil cs)
          | cons r rs =>
              have hj : joinSep ['/'] (r :: rs) = cs := by
                rw [← hs, joinSep_splitSlash cs]
              cases rs with
              | nil =>
                  rw [joinSep] at hj ⊢
                  rw [hj]
              | cons r2 rs2 =>
                  rw [joinSep] at hj ⊢
                  · simp only [List.cons_append, List.append_assoc,
                      List.singleton_append] at hj ⊢
                    rw [hj]
                  · simp
                  · simp

/-- Over components free of `..`, the `normpath` component loop keeps
exactly the normal components, in order. -/
theorem foldl_normStep_no_dotdot (i : Bool) :
    ∀ (comps : List (List Char)) (acc : List (List Char)),
      (∀ c ∈ comps, c ≠ ['.', '.']) →
      List.foldl (normStep i) acc comps
        = acc ++ comps.filter (fun c => !c.isEmpty && c != ['.'])
  | [], acc, _ => by simp
  | c :: cs, acc, h => by
      rw [List.foldl_cons, List.filter_cons]
      by_cases hskip : c = [] ∨ c = ['.']
      · have hstep : normStep i acc c = acc := by
          unfold normStep
          rw [if_pos hskip]
        rw [hstep, foldl_normStep_no_dotdot i cs acc (fun x hx => h x (by simp [hx]))]
        have : (!c.isEmpty && c != ['.']) = false := by
          rcases hskip with rfl | rfl <;> decide
        rw [this]
        simp
      · have hdd : c ≠ ['.', '.'] := h c (by simp)
        have hstep : normStep i acc c = acc ++ [c] := by
          unfold normStep
          rw [if_neg hskip, if_pos (Or.inl hdd)]
        rw [hstep, foldl_normStep_no_dotdot i cs (acc ++ [c])
          (fun x hx => h x (by simp [hx]))]
        have : (!c.isEmpty && c != ['.']) = true := by
          push_neg at hskip
          obtain ⟨h1, h2⟩ := hskip
          simp [h1, h2]
        rw [this]
        simp

theorem mk_ne_empty {l : List Char} (h : l ≠ []) : String.mk l ≠ "" := by
  intro he
  have : (String.mk l).data = ("" : String).data := by rw [he]
  simp at this
  exact h this

/-- `normpath` is the identity on a path all of whose components are
normal. -/
theorem normpath_sane (s : String)
    (h : ∀ comp ∈ splitSlash s.data, normalComp comp = true) :
    normpath s = s := by
  have hne : s.data ≠ [] := by
    intro hnil
    have := h [] (by rw [hnil]; simp [splitSlash])
    simp [normalComp] at this
  have hhead : s.data.head? ≠ some '/' := by
    intro hh
    cases hsd : s.data with
    | nil => exact hne hsd
    | cons a cs =>
        rw [hsd] at hh
        simp only [List.head?_cons, Option.some.injEq] at hh
        subst hh
        have := h [] (by rw [hsd]; rw [show splitSlash ('/' :: cs) = [] :: splitSlash cs from rfl]; simp)
        simp [normalComp] at this
  have hsne : s ≠ "" := by
    intro he
    rw [he] at hne
    exact hne rfl
  unfold normpath
  rw [if_neg hsne]
  simp only []
  have hinit : (s.data.head? == some '/') = false := by
    simpa using hhead
  rw [hinit]
  simp only [Bool.false_eq_true, if_false, List.replicate_zero, List.nil_append]
  have hfold : (splitSlash s.data).foldl (normStep false) []
      = splitSlash s.data := by
    rw [foldl_normStep_no_dotdot false (splitSlash s.data) []
      (fun c hc => by
        have := h c hc
        simp only [normalComp, Bool.and_eq_true, bne_iff_ne] at this
        exact this.2)]
    rw [List.nil_append]
    apply List.filter_eq_self.mpr
    intro c hc
    have := h c hc
    simp only [normalComp, Bool.and_eq_true, bne_iff_ne] at this ⊢
    exact ⟨this.1.1, by simpa using this.1.2⟩
  rw [hfold, joinSep_splitSlash]
  rw [if_neg (mk_ne_empty hne)]

/-- `lstrip("/")` is the identity when the path does not start with `/`. -/
theorem lstripSlash_id (s : String) (h : s.data.head? ≠ some '/') :
    lstripSlash s = s := by
  unfold lstripSlash
  rw [dropWhile_id_of_head s.data (fun c hc => by
    simp only [decide_eq_false_iff_not]
    intro he
    subst he
    exact h hc)]

/-- `posixpath.join` glues three components with single slashes when none is
absolute, the accumulated parts are nonempty, and nothing ends in `/`. -/
theorem pjoin_three (a b rel : String)
    (hb : b.data.head? ≠ some '/') (hrel : rel.data.head? ≠ some '/')
    (ha1 : a.data ≠ []) (ha2 : a.data.getLast? ≠ some '/')
    (hab1 : (a ++ "/" ++ b).data ≠ []) (hab2 : (a ++ "/" ++ b).data.getLast? ≠ some '/') :
    pjoin [a, b, rel] = a ++ "/" ++ b ++ "/" ++ rel := by
  have h1 : pjoin2 a b = a ++ "/" ++ b := by
    unfold pjoin2
    rw [if_neg hb, if_neg (by
      intro hor
      rcases hor with h | h
      · exact ha1 h
      · exact ha2 h)]
  show pjoin2 (pjoin2 a b) rel = _
  rw [h1]
  unfold pjoin2
  rw [if_neg hrel, if_neg (by
    intro hor
    rcases hor with h | h
    · exact hab1 h
    · exact hab2 h)]

/-- `normalize_zip_path` on three slash-glued sane components is the plain
slash join. -/
theorem normalize_zip_path_three (a b rel : String)
    (hcomp : ∀ comp ∈ splitSlash (a ++ "/" ++ b ++ "/" ++ rel).data, normalComp comp = true)
    (hahead : (a ++ "/" ++ b ++ "/" ++ rel).data.head? ≠ some '/')
    (hb : b.data.head? ≠ some '/') (hrel : rel.data.head? ≠ some '/')
    (ha1 : a.data ≠ []) (ha2 : a.data.getLast? ≠ some '/')
    (hab1 : (a ++ "/" ++ b).data ≠ []) (hab2 : (a ++ "/" ++ b).data.getLast? ≠ some '/') :
    normalize_zip_path [a, b, rel] = a ++ "/" ++ b ++ "/" ++ rel := by
  unfold normalize_zip_path
  rw [pjoin_three a b rel hb hrel ha1 ha2 hab1 hab2]
  rw [normpath_sane _ hcomp]
  exact lstripSlash_id _ hahead

/-- Unpacking `saneRelB`. -/
theorem saneRelB_spec {s : String} (h : saneRelB s = true) :
    (∀ comp ∈ splitSlash s.data, normalComp comp = true) ∧ sanePathB s = true := by
  simp only [saneRelB, Bool.and_eq_true, List.all_eq_true] at h
  obtain ⟨h1, h2⟩ := h
  refine ⟨fun comp hc => ?_, h2⟩
  have := h1 comp hc
  simp only [Bool.and_eq_true, decide_eq_true_eq, Bool.not_eq_true'] at this
  simp only [normalComp, Bool.and_eq_true, bne_iff_ne]
  exact ⟨⟨by simp [this.1.1], by simpa using this.1.2⟩, by simpa using this.2⟩

/-- A sane relative path has no `/` as first character. -/
theorem saneRel_head {s : String} (h : saneRelB s = true) :
    s.data.head? ≠ some '/' := by
  obtain ⟨hcomp, _⟩ := saneRelB_spec h
  intro hh
  cases hsd : s.data with
  | nil => rw [hsd] at hh; simp at hh
  | cons c cs =>
      rw [hsd] at hh
      simp only [List.head?_cons, Option.some.injEq] at hh
      subst hh
      have := hcomp [] (by
        rw [hsd, show splitSlash ('/' :: cs) = [] :: splitSlash cs from rfl]
        simp)
      simp [normalComp] at this

/-- The zip path of a stem with a sane relative path. -/
theorem stems_zip_path_eq (rel : String) (h : saneRelB rel = true) :
    normalize_zip_path ["payload", "stems", rel] = "payload/stems/" ++ rel := by
  obtain ⟨hcomp, _⟩ := saneRelB_spec h
  have hdat : ("payload" ++ "/" ++ "stems" ++ "/" ++ rel).data
      = "payload".data ++ '/' :: ("stems".data ++ '/' :: rel.data) := by
    simp [data_append]
  have hsplit : splitSlash ("payload" ++ "/" ++ "stems" ++ "/" ++ rel).data
      = "payload".data :: "stems".data :: splitSlash rel.data := by
    rw [hdat, splitSlash_append _ _ (by decide), splitSlash_append _ _ (by decide)]
  have heq : ("payload" : String) ++ "/" ++ "stems" ++ "/" ++ rel
      = "payload/stems/" ++ rel := by
    apply string_data_ext
    simp [data_append]
  rw [← heq]
  apply normalize_zip_path_three
  · intro comp hc
    rw [hsplit] at hc
    rcases List.mem_cons.mp hc with rfl | hc
    · decide
    rcases List.mem_cons.mp hc with rfl | hc
    · decide
    exact hcomp comp hc
  · rw [hdat]
    simp
  · decide
  · exact saneRel_head h
  · decide
  · decide
  · decide
  · decide

/-- Unpacking `saneExtB`. -/
theorem saneExtB_spec {s : String} (h : saneExtB s = true) :
    s.data ≠ [] ∧ ∀ c ∈ s.data, c ≠ '/' ∧ pyIsSpace c = false ∧ isLineBreak c = false := by
  simp only [saneExtB, Bool.and_eq_true, List.all_eq_true, Bool.not_eq_true',
    List.isEmpty_eq_false] at h
  obtain ⟨h1, h2⟩ := h
  refine ⟨h1, fun c hc => ?_⟩
  have := h2 c hc
  simp only [Bool.and_eq_true, decide_eq_true_eq, Bool.not_eq_true'] at this
  exact ⟨this.1.1, this.1.2, this.2⟩

/-- The canonical audio zip path, given a sane extension. -/
theorem audio_zip_path_eq (opts : ConvertOptions)
    (h : saneExtB (audioExt opts.audio_name) = true) :
    audio_zip_path opts = "payload/audio/main." ++ audioExt opts.audio_name := by
  obtain ⟨hne, hch⟩ := saneExtB_spec h
  set ext := audioExt opts.audio_name with hext
  have hmain : ∀ c ∈ ("main." ++ ext).data, c ≠ '/' := by
    intro c hc
    rw [data_append] at hc
    rcases List.mem_append.mp hc with hc | hc
    · intro he
      subst he
      simp [show ("main." : String).data = ['m', 'a', 'i', 'n', '.'] from rfl] at hc
    · exact (hch c hc).1
  have hrelhead : ("main." ++ ext).data.head? ≠ some '/' := by
    rw [data_append]
    rw [List.head?_append_of_ne_nil _ (by decide)]
    decide
  have hdat : ("payload" ++ "/" ++ "audio" ++ "/" ++ ("main." ++ ext)).data
      = "payload".data ++ '/' :: ("audio".data ++ '/' :: ("main." ++ ext).data) := by
    simp [data_append]
  have hsplit : splitSlash ("payload" ++ "/" ++ "audio" ++ "/" ++ ("main." ++ ext)).data
      = "payload".data :: "audio".data :: splitSlash ("main." ++ ext).data := by
    rw [hdat, splitSlash_append _ _ (by decide), splitSlash_append _ _ (by decide)]
  have hsingle : splitSlash ("main." ++ ext).data = [("main." ++ ext).data] :=
    splitSlash_single _ hmain
  have heq : ("payload" : String) ++ "/" ++ "audio" ++ "/" ++ ("main." ++ ext)
      = "payload/audio/main." ++ ext := by
    apply string_data_ext
    simp [data_append]
  unfold audio_zip_path
  rw [← hext, ← heq]
  apply normalize_zip_path_three
  · intro comp hc
    rw [hsplit, hsingle] at hc
    rcases List.mem_cons.mp hc with rfl | hc
    · decide
    rcases List.mem_cons.mp hc with rfl | hc
    · decide
    · have hcm : comp = ("main." ++ ext).data := by simpa using hc
      subst hcm
      simp only [normalComp, Bool.and_eq_true, bne_iff_ne]
      refine ⟨⟨?_, ?_⟩, ?_⟩
      · simp [data_append]
      · rw [data_append]
        intro hbad
        have hh := congrArg (List.head?) hbad
        simp [show ("main." : String).data = ['m', 'a', 'i', 'n', '.'] from rfl] at hh
      · rw [data_append]
        intro hbad
        have hh := congrArg (List.head?) hbad
        simp [show ("main." : String).data = ['m', 'a', 'i', 'n', '.'] from rfl] at hh
  · rw [hdat]
    simp
  · decide
  · exact hrelhead
  · decide
  · decide
  · decide
  · decide

/-! ## Sanity and distinctness of the written archive paths -/

theorem sanePathB_append (pre x : String)
    (hpre_ne : pre.data ≠ [])
    (hpre_br : ∀ c ∈ pre.data, isLineBreak c = false)
    (hpre_head : pyIsSpace (pre.data.headD 'x') = false)
    (hx_ne : x.data ≠ [])
    (hx_br : ∀ c ∈ x.data, isLineBreak c = false)
    (hx_last : pyIsSpace (x.data.getLastD 'x') = false) :
    sanePathB (pre ++ x) = true := by
  simp only [sanePathB, Bool.and_eq_true, data_append]
  refine ⟨⟨⟨?_, ?_⟩, ?_⟩, ?_⟩
  · simp only [Bool.not_eq_true', List.isEmpty_eq_false]
    simp [hpre_ne]
  · rw [List.all_eq_true]
    intro c hc
    rcases List.mem_append.mp hc with hc | hc
    · simp [hpre_br c hc]
    · simp [hx_br c hc]
  · cases hpd : pre.data with
    | nil => exact absurd hpd hpre_ne
    | cons a l =>
        rw [hpd] at hpre_head
        simp only [List.cons_append, List.headD_cons]
        simp only [List.headD_cons] at hpre_head
        simp [hpre_head]
  · rw [List.getLastD_eq_getLast?] at hx_last
    rw [List.getLastD_eq_getLast?, List.getLast?_append_of_ne_nil _ hx_ne]
    simp [hx_last]

theorem string_append_left_cancel {pre a b : String} (h : pre ++ a = pre ++ b) :
    a = b := by
  have hd := congrArg String.data h
  simp only [data_append] at hd
  exact string_data_ext (List.append_cancel_left hd)

theorem eq_snd_of_nodup_fst {α β : Type} : ∀ (l : List (α × β)),
    (l.map Prod.fst).Nodup → ∀ {p : α} {b1 b2 : β},
    (p, b1) ∈ l → (p, b2) ∈ l → b1 = b2
  | [], _, _, _, _, h1, _ => by simp at h1
  | (a, b) :: t, hnd, p, b1, b2, h1, h2 => by
      rw [List.map_cons, List.nodup_cons] at hnd
      rcases List.mem_cons.mp h1 with he1 | ht1
      · rcases List.mem_cons.mp h2 with he2 | ht2
        · rw [Prod.mk.injEq] at he1 he2
          rw [he1.2, he2.2]
        · rw [Prod.mk.injEq] at he1
          exfalso
          apply hnd.1
          have : a ∈ List.map Prod.fst t := by
            rw [← he1.1]
            exact List.mem_map.mpr ⟨(p, b2), ht2, rfl⟩
          exact this
      · rcases List.mem_cons.mp h2 with he2 | ht2
        · rw [Prod.mk.injEq] at he2
          exfalso
          apply hnd.1
          have : a ∈ List.map Prod.fst t := by
            rw [← he2.1]
            exact List.mem_map.mpr ⟨(p, b1), ht1, rfl⟩
          exact this
        · exact eq_snd_of_nodup_fst t hnd.2 ht1 ht2

/-- The combined input-sanity hypothesis for a conversion: a sane derived
audio extension, sane stem relative paths, and distinct stem relative
paths.  These reflect what the filesystem guarantees about real inputs. -/
def SaneInputs (opts : ConvertOptions) : Prop :=
  saneExtB (audioExt opts.audio_name) = true ∧
  (∀ f ∈ opts.stems.getD [], saneRelB f.1 = true) ∧
  ((opts.stems.getD []).map (fun f => f.1)).Nodup

instance (opts : ConvertOptions) : Decidable (SaneInputs opts) := by
  unfold SaneInputs
  infer_instance

theorem stems_files_eq (opts : ConvertOptions)
    (h : ∀ f ∈ opts.stems.getD [], saneRelB f.1 = true) :
    stems_files opts
      = (opts.stems.getD []).map (fun f => ("payload/stems/" ++ f.1, f.2)) := by
  unfold stems_files
  apply List.map_congr_left
  intro f hf
  rw [stems_zip_path_eq f.1 (h f hf)]

theorem stems_path_ne_audio (r ext : String) :
    ("payload/stems/" ++ r) ≠ ("payload/audio/main." ++ ext) := by
  intro he
  have hd := congrArg String.data he
  simp only [data_append] at hd
  simp at hd

/-- The archive-internal paths of the payload entry set are pairwise
distinct. -/
theorem payload_paths_nodup (opts : ConvertOptions) (hs : SaneInputs opts) :
    ((payload_entries opts).map Prod.fst).Nodup := by
  obtain ⟨hext, hrel, hnd⟩ := hs
  unfold payload_entries
  rw [List.map_cons, List.nodup_cons, audio_zip_path_eq opts hext,
    stems_files_eq opts hrel]
  constructor
  · intro hmem
    rw [List.map_map] at hmem
    obtain ⟨f, _, hf⟩ := List.mem_map.mp hmem
    exact stems_path_ne_audio f.1 (audioExt opts.audio_name) hf
  · rw [List.map_map]
    have hcomp : (fun f : String × String => ("payload/stems/" ++ f.1, f.2))
        = (fun f : String × String => ("payload/stems/" ++ f.1, f.2)) := rfl
    have : (Prod.fst ∘ fun f : String × String => ("payload/stems/" ++ f.1, f.2))
        = (fun r : String => "payload/stems/" ++ r) ∘ (fun f => f.1) := rfl
    rw [this, ← List.map_map]
    apply List.Nodup.map
    · intro a b hab
      exact string_append_left_cancel hab
    · exact hnd

/-! ## The archive tail: canonical paths -/

theorem norm_manifest_path :
    normalize_zip_path ["metadata", "manifest.json"] = "metadata/manifest.json" := by decide

theorem norm_prompt_path :
    normalize_zip_path ["metadata", "prompt", "prompt.txt"]
      = "metadata/prompt/prompt.txt" := by decide

theorem norm_negative_path :
    normalize_zip_path ["metadata", "prompt", "negative_prompt.txt"]
      = "metadata/prompt/negative_prompt.txt" := by decide

theorem norm_lyrics_path :
    normalize_zip_path ["metadata", "lyrics.txt"] = "metadata/lyrics.txt" := by decide

theorem norm_persona_path :
    normalize_zip_path ["metadata", "persona.txt"] = "metadata/persona.txt" := by decide

theorem norm_declaration_path :
    normalize_zip_path ["metadata", "declaration.txt"] = "metadata/declaration.txt" := by
  decide

theorem norm_checksums_path :
    normalize_zip_path ["verification", "checksums.sha256"]
      = "verification/checksums.sha256" := by decide

/-- `tail_entries` with the canonical archive paths evaluated. -/
theorem tail_entries_eq (hash : String → String) (opts : ConvertOptions) (now : String) :
    tail_entries hash opts now =
      [zip_write "metadata/manifest.json" (dumpsJson (build_manifest opts now) 0)]
      ++ opt_entry "metadata/prompt/prompt.txt" opts.prompt
      ++ opt_entry "metadata/prompt/negative_prompt.txt" opts.negative_prompt
      ++ opt_entry "metadata/lyrics.txt" opts.lyrics
      ++ opt_entry "metadata/persona.txt" opts.persona
      ++ opt_entry "metadata/declaration.txt" opts.declaration
      ++ [zip_write "verification/checksums.sha256"
            (make_checksums_payload_only hash (payload_entries opts)),
          zip_write "README.txt" (build_readme (build_manifest opts now))] := by
  unfold tail_entries
  rw [norm_manifest_path, norm_prompt_path, norm_negative_path, norm_lyrics_path,
    norm_persona_path, norm_declaration_path, norm_checksums_path]

theorem mem_opt_entry {p : String} {o : Option String} {e : ZipEntry}
    (h : e ∈ opt_entry p o) : ∃ data, o = some data ∧ e = zip_write p data := by
  cases o with
  | none => simp [opt_entry] at h
  | some d =>
      simp only [opt_entry, List.mem_singleton] at h
      exact ⟨d, rfl, h⟩

/-- The fixed set of non-payload archive paths. -/
def tailPaths : List String :=
  ["metadata/manifest.json", "metadata/prompt/prompt.txt",
   "metadata/prompt/negative_prompt.txt", "metadata/lyrics.txt",
   "metadata/persona.txt", "metadata/declaration.txt",
   "verification/checksums.sha256", "README.txt"]

/-- Every tail entry is either the manifest, one of the optional text
assets at its fixed canonical path, the ledger, or the README. -/
theorem tail_mem (hash : String → String) (opts : ConvertOptions) (now : String) :
    ∀ e ∈ tail_entries hash opts now,
      e = zip_write "metadata/manifest.json" (dumpsJson (build_manifest opts now) 0) ∨
      (∃ pv ∈ (["metadata/prompt/prompt.txt", "metadata/prompt/negative_prompt.txt",
                "metadata/lyrics.txt", "metadata/persona.txt",
                "metadata/declaration.txt"] : List String),
         ∃ data, e = zip_write pv data) ∨
      e = zip_write "verification/checksums.sha256"
            (make_checksums_payload_only hash (payload_entries opts)) ∨
      e = zip_write "README.txt" (build_readme (build_manifest opts now)) := by
  intro e he
  rw [tail_entries_eq] at he
  rcases List.mem_append.mp he with h6 | hlast
  rcases List.mem_append.mp h6 with h5 | hdec
  rcases List.mem_append.mp h5 with h4 | hper
  rcases List.mem_append.mp h4 with h3 | hlyr
  rcases List.mem_append.mp h3 with h2 | hneg
  rcases List.mem_append.mp h2 with h1 | hpro
  · left
    simpa using h1
  · obtain ⟨data, _, rfl⟩ := mem_opt_entry hpro
    right; left
    exact ⟨_, by simp, data, rfl⟩
  · obtain ⟨data, _, rfl⟩ := mem_opt_entry hneg
    right; left
    exact ⟨_, by simp, data, rfl⟩
  · obtain ⟨data, _, rfl⟩ := mem_opt_entry hlyr
    right; left
    exact ⟨_, by simp, data, rfl⟩
  · obtain ⟨data, _, rfl⟩ := mem_opt_entry hper
    right; left
    exact ⟨_, by simp, data, rfl⟩
  · obtain ⟨data, _, rfl⟩ := mem_opt_entry hdec
    right; left
    exact ⟨_, by simp, data, rfl⟩
  · rcases List.mem_cons.mp hlast with h | h
    · right; right; left
      exact h
    · right; right; right
      simpa using h

/-- Every tail entry's path is one of the eight fixed non-payload paths. -/
theorem tail_path_mem (hash : String → String) (opts : ConvertOptions) (now : String) :
    ∀ e ∈ tail_entries hash opts now, e.path ∈ tailPaths := by
  intro e he
  rcases tail_mem hash opts now e he with h | ⟨pv, hpv, data, h⟩ | h | h
  · subst h; simp [zip_write, tailPaths]
  · subst h
    show pv ∈ _
    simp only [List.mem_cons, List.not_mem_nil, or_false] at hpv
    rcases hpv with rfl | rfl | rfl | rfl | rfl <;> simp [tailPaths]
  · subst h; simp [zip_write, tailPaths]
  · subst h; simp [zip_write, tailPaths]

/-! ## Locating entries in the produced archive -/

theorem head_append (pre x : String) (h : pre.data ≠ []) :
    (pre ++ x).data.head? = pre.data.head? := by
  rw [data_append, List.head?_append_of_ne_nil _ h]

theorem getLastD_mem : ∀ (l : List Char) (d : Char), l ≠ [] → l.getLastD d ∈ l
  | [], _, h => absurd rfl h
  | [a], d, _ => by simp
  | a :: b :: t, d, _ => by
      rw [List.getLastD_cons]
      exact List.mem_cons_of_mem _ (getLastD_mem (b :: t) a (by simp))

/-- Unpacking `sanePathB` in `headD`/`getLastD` form. -/
theorem sanePathB_parts {s : String} (h : sanePathB s = true) :
    s.data ≠ [] ∧ (∀ c ∈ s.data, isLineBreak c = false) ∧
      pyIsSpace (s.data.headD 'x') = false ∧
      pyIsSpace (s.data.getLastD 'x') = false := by
  simp only [sanePathB, Bool.and_eq_true, List.all_eq_true, Bool.not_eq_true',
    List.isEmpty_eq_false] at h
  obtain ⟨⟨⟨h1, h2⟩, h3⟩, h4⟩ := h
  exact ⟨h1, fun c hc => by simpa using h2 c hc, h3, h4⟩

/-- Every payload path starts with the letter `p` (of `payload/`). -/
theorem payload_path_head (opts : ConvertOptions) (hs : SaneInputs opts) :
    ∀ pr ∈ payload_entries opts, pr.1.data.head? = some 'p' := by
  obtain ⟨hext, hrel, _⟩ := hs
  intro pr hpr
  unfold payload_entries at hpr
  rcases List.mem_cons.mp hpr with heq | hst
  · rw [heq]
    show (audio_zip_path opts).data.head? = _
    rw [audio_zip_path_eq opts hext, head_append _ _ (by decide)]
    decide
  · rw [stems_files_eq opts hrel] at hst
    obtain ⟨f, _, rfl⟩ := List.mem_map.mp hst
    show ("payload/stems/" ++ f.1).data.head? = _
    rw [head_append _ _ (by decide)]
    decide

/-- No fixed non-payload path is a payload path. -/
theorem tailPath_ne_payload {q p : String} (hq : q ∈ tailPaths)
    (hp : p.data.head? = some 'p') : q ≠ p := by
  intro he
  subst he
  simp only [tailPaths, List.mem_cons, List.not_mem_nil, or_false] at hq
  rcases hq with rfl | rfl | rfl | rfl | rfl | rfl | rfl | rfl <;> simp at hp

/-- Every payload path is a usable archive path. -/
theorem payload_paths_sane (opts : ConvertOptions) (hs : SaneInputs opts) :
    ∀ pr ∈ payload_entries opts, sanePathB pr.1 = true := by
  obtain ⟨hext, hrel, _⟩ := hs
  intro pr hpr
  unfold payload_entries at hpr
  rcases List.mem_cons.mp hpr with heq | hst
  · rw [heq]
    show sanePathB (audio_zip_path opts) = true
    rw [audio_zip_path_eq opts hext]
    obtain ⟨hne, hch⟩ := saneExtB_spec hext
    apply sanePathB_append
    · decide
    · decide
    · decide
    · exact hne
    · exact fun c hc => (hch c hc).2.2
    · exact (hch _ (getLastD_mem _ 'x' hne)).2.1
  · rw [stems_files_eq opts hrel] at hst
    obtain ⟨f, hf, rfl⟩ := List.mem_map.mp hst
    show sanePathB ("payload/stems/" ++ f.1) = true
    obtain ⟨_, hsp⟩ := saneRelB_spec (hrel f hf)
    obtain ⟨hne, hbr, _, hlast⟩ := sanePathB_parts hsp
    apply sanePathB_append
    · decide
    · decide
    · decide
    · exact hne
    · exact hbr
    · exact hlast

/-- Decomposing membership in the produced archive. -/
theorem convert_mem {hash : String → String} {opts : ConvertOptions} {now : String}
    {e : ZipEntry} (he : e ∈ (convert_aifm hash opts now).entries) :
    (∃ pr ∈ payload_entries opts, e = zip_write pr.1 pr.2) ∨
      e ∈ tail_entries hash opts now := by
  simp only [convert_aifm] at he
  rcases List.mem_cons.mp he with rfl | h
  · exact Or.inl ⟨(audio_zip_path opts, opts.audio_bytes), by simp [payload_entries], rfl⟩
  rcases List.mem_append.mp h with hmap | htail
  · obtain ⟨pr, hpr, rfl⟩ := List.mem_map.mp hmap
    exact Or.inl ⟨pr,
      List.mem_cons_of_mem _ ((sortByPath_perm _).mem_iff.mp hpr), rfl⟩
  · exact Or.inr htail

/-- Reading the checksum ledger back from the produced archive. -/
theorem zread_convert_ledger (hash : String → String) (opts : ConvertOptions)
    (now : String) (hs : SaneInputs opts) :
    zread (convert_aifm hash opts now).entries "verification/checksums.sha256"
      = some (make_checksums_payload_only hash (payload_entries opts)) := by
  apply zread_eq_some
  · refine ⟨zip_write "verification/checksums.sha256"
      (make_checksums_payload_only hash (payload_entries opts)), ?_, rfl, rfl⟩
    simp only [convert_aifm]
    apply List.mem_cons_of_mem
    apply List.mem_append_right
    rw [tail_entries_eq]
    simp
  · intro e he hpe
    rcases convert_mem he with ⟨pr, hpr, rfl⟩ | htail
    · exfalso
      have hph := payload_path_head opts hs pr hpr
      rw [show (zip_write pr.1 pr.2).path = pr.1 from rfl] at hpe
      rw [hpe] at hph
      simp at hph
    · rcases tail_mem hash opts now e htail with h | ⟨pv, hpv, data, h⟩ | h | h
      · subst h; simp [zip_write] at hpe
      · subst h
        exfalso
        simp only [List.mem_cons, List.not_mem_nil, or_false] at hpv
        rcases hpv with rfl | rfl | rfl | rfl | rfl <;> simp [zip_write] at hpe
      · subst h; rfl
      · subst h; simp [zip_write] at hpe

/-- Reading a payload file back from the produced archive returns exactly
the bytes the conversion copied in. -/
theorem zread_convert_payload (hash : String → String) (opts : ConvertOptions)
    (now : String) (hs : SaneInputs opts) {p c : String}
    (hpc : (p, c) ∈ payload_entries opts) :
    zread (convert_aifm hash opts now).entries p = some c := by
  apply zread_eq_some
  · rcases List.mem_cons.mp hpc with heq | hst
    · injection heq with h1 h2
      refine ⟨zip_write (audio_zip_path opts) opts.audio_bytes, by simp [convert_aifm], ?_, ?_⟩
      · exact h1.symm
      · exact h2.symm
    · refine ⟨zip_write p c, ?_, rfl, rfl⟩
      simp only [convert_aifm]
      apply List.mem_cons_of_mem
      apply List.mem_append_left
      exact List.mem_map.mpr ⟨(p, c), (sortByPath_perm _).mem_iff.mpr hst, rfl⟩
  · intro e he hpe
    rcases convert_mem he with ⟨pr, hpr, rfl⟩ | htail
    · rw [show (zip_write pr.1 pr.2).path = pr.1 from rfl] at hpe
      show pr.2 = c
      exact eq_snd_of_nodup_fst _ (payload_paths_nodup opts hs)
        (by rw [← hpe]; exact hpr) hpc
    · exfalso
      have hq := tail_path_mem hash opts now e htail
      have hp : p.data.head? = some 'p' := payload_path_head opts hs (p, c) hpc
      exact tailPath_ne_payload hq hp hpe

/-! ## Claim C1 -/

/-- Claim C1: for every valid input set (sane audio extension, sane and
distinct stem relative paths — the facts the filesystem guarantees for
existing files — and the hashlib digest contract), running the write path
`convert_aifm` and then `verify_payload_checksums` on the resulting archive
yields an empty discrepancy list. -/
theorem claim_C1 (hash : String → String) (opts : ConvertOptions) (now : String)
    (hhex : HexDigest hash) (hs : SaneInputs opts) :
    verify_payload_checksums hash (convert_aifm hash opts now).entries = some [] := by
  unfold verify_payload_checksums
  rw [zread_convert_ledger hash opts now hs]
  simp only [Option.map_some']
  congr 1
  rw [parse_make hash (payload_entries opts)
    (fun pr _ => hexDigest_sane hhex pr.2)
    (payload_paths_sane opts hs)]
  rw [verifyLoop_eq_filterMap]
  rw [List.filterMap_eq_nil_iff]
  intro a ha
  obtain ⟨pr, hpr, rfl⟩ := List.mem_map.mp ha
  have hmem : (pr.1, pr.2) ∈ payload_entries opts := (sortByPath_perm _).mem_iff.mp hpr
  unfold entryDiscrepancy
  rw [show ((hash pr.2, pr.1) : String × String).2 = pr.1 from rfl]
  rw [zread_convert_payload hash opts now hs hmem]
  simp

/-- A stand-in digest function satisfying the hashlib output contract, for
concrete witnesses. -/
def hashW : String → String := fun _ => String.mk (List.replicate 64 'a')

theorem hashW_hex : HexDigest hashW := by
  intro s
  unfold hashW
  constructor
  · decide
  · decide

/-- A concrete conversion input with stems, prompt, lyrics, persona,
declaration, and URLs, for witnesses. -/
def optsW : ConvertOptions :=
  { audio_name := "song.wav", audio_bytes := "AUDIOBYTES", out_path := "out/song",
    title := "Test", description := "d", creation_mode := "human-directed-ai",
    tier := "SDA", author := "A", contact := "a@example.com", ownership_claim := true,
    ai_systems := ["Suno"], apps := ["App"], toolchain_notes := "",
    prompt := some "PROMPT", negative_prompt := none, lyrics := some "LYRICS",
    stems := some [("vocals.wav", "VV"), ("drums.wav", "DD")],
    persona := some "PERSONA", declaration := some "DECL", urls := ["https://x"] }

theorem claim_C1_witness :
    HexDigest hashW ∧ SaneInputs optsW ∧
      verify_payload_checksums hashW
        (convert_aifm hashW optsW "2024-01-01T00:00:00Z").entries = some [] :=
  ⟨hashW_hex, by decide, claim_C1 hashW optsW "2024-01-01T00:00:00Z" hashW_hex (by decide)⟩

/-! ## Claim C4 -/

/-- Claim C4: for every archive and every ledger text, the verification
loop processes all parsed entries without stopping at the first failure:
the error list is exactly the per-entry classification — one
missing-payload-file message per listed path absent from the archive, one
hash-mismatch message (carrying the expected digest and the freshly
computed one) per present path whose digest differs under case-insensitive
comparison, and nothing for a matching entry; and
`verify_payload_checksums` applies this loop to the ledger read from the
archive. -/
theorem claim_C4 (hash : String → String) (arc : List ZipEntry) (text : String) :
    verifyLoop hash arc (parse_sha256sum text)
        = (parse_sha256sum text).filterMap (fun e =>
            match zread arc e.2 with
            | none => some (missingMsg e.2)
            | some data =>
                if lowerStr (hash data) ≠ lowerStr e.1 then
                  some (mismatchMsg e.2 e.1 (hash data))
                else none) ∧
      verify_payload_checksums hash arc
        = (zread arc "verification/checksums.sha256").map
            (fun t => verifyLoop hash arc (parse_sha256sum t)) :=
  ⟨verifyLoop_eq_filterMap hash arc (parse_sha256sum text), rfl⟩

/-! ## Claim C9 -/

/-- Claim C9: rendering a list of payload entries to a ledger and parsing
it back is a round trip — the parsed list is exactly the (digest, path)
pairs of the input, sorted by path ascending in code-point order. -/
theorem claim_C9 (hash : String → String) (entries : List (String × String))
    (hd : ∀ e ∈ entries, saneDigestB (hash e.2) = true)
    (hp : ∀ e ∈ entries, sanePathB e.1 = true) :
    parse_sha256sum (make_checksums_payload_only hash entries)
        = (sortByPath entries).map (fun e => (hash e.2, e.1)) ∧
      (sortByPath entries).Perm entries ∧
      List.Sorted (fun a b : String × String => lexLeB a.1.data b.1.data = true)
        (sortByPath entries) :=
  ⟨parse_make hash entries hd hp, sortByPath_perm entries, sortByPath_sorted entries⟩

/-- Concrete payload entries for the C9 witness. -/
def entriesW : List (String × String) :=
  [("payload/stems/b.wav", "BB"), ("payload/audio/main.wav", "AA")]

theorem claim_C9_witness :
    (∀ e ∈ entriesW, saneDigestB (hashW e.2) = true) ∧
      (∀ e ∈ entriesW, sanePathB e.1 = true) ∧
      (parse_sha256sum (make_checksums_payload_only hashW entriesW)
          = (sortByPath entriesW).map (fun e => (hashW e.2, e.1)) ∧
        (sortByPath entriesW).Perm entriesW ∧
        List.Sorted (fun a b : String × String => lexLeB a.1.data b.1.data = true)
          (sortByPath entriesW)) :=
  ⟨by decide, by decide, claim_C9 hashW entriesW (by decide) (by decide)⟩

/-! ## Claim C6 -/

/-- The claim's description of the line split, stated for comparison with
the code: split at the first run of two-or-more *whitespace characters*
(not specifically two spaces), the run itself consumed. -/
def splitWsRun : List Char → Option (List Char × List Char)
  | c1 :: c2 :: cs =>
      if pyIsSpace c1 && pyIsSpace c2 then some ([], (c2 :: cs).dropWhile pyIsSpace)
      else (splitWsRun (c2 :: cs)).map (fun r => (c1 :: r.1, r.2))
  | _ => none

/-- The per-line parser the claim describes (whitespace-run split, else
whitespace-token fallback, blank and short lines skipped). -/
def parseLineClaimed (line0 : List Char) : Option (String × String) :=
  if (stripL line0).isEmpty then none
  else
    match splitWsRun (stripL line0) with
    | some (h, p) => some (String.mk (stripL h), String.mk (stripL p))
    | none =>
        match pySplit (stripL line0) with
        | a :: b :: _ => some (String.mk a, String.mk b)
        | _ => none

/-- The ledger parser the claim describes. -/
def parse_sha256sum_claimed (text : String) : List (String × String) :=
  (splitlinesL text.data).filterMap parseLineClaimed

/-- Claim C6 is false as stated: the code only treats two consecutive
ASCII spaces as the primary separator, so a tab-tab separator falls
through to the whitespace-token fallback and the path is truncated at its
first internal space, unlike the claimed whitespace-run split. -/
theorem claim_C6_counterexample :
    parse_sha256sum "h\t\tp q" = [("h", "p")] ∧
      parse_sha256sum_claimed "h\t\tp q" = [("h", "p q")] ∧
      (("h", "p") : String × String) ≠ ("h", "p q") :=
  ⟨by decide, by decide, by decide⟩

/-- The per-line parser of the amended claim: strip the line and skip it
when blank; split at the first occurrence of two consecutive ASCII spaces
when present, stripping both sides; otherwise fall back to
whitespace-token splitting and keep the first two tokens; skip lines with
fewer than two tokens. -/
def parseLineAmended (line0 : List Char) : Option (String × String) :=
  if (stripL line0).isEmpty then none
  else
    match splitTwoSpace (stripL line0) with
    | some (h, p) => some (String.mk (stripL h), String.mk (stripL p))
    | none =>
        match pySplit (stripL line0) with
        | a :: b :: _ => some (String.mk a, String.mk b)
        | _ => none

/-- The ledger parser of the amended claim, over the split lines in
order. -/
def parse_sha256sum_amended (text : String) : List (String × String) :=
  (splitlinesL text.data).filterMap parseLineAmended

/-- Claim C6 amended: `parse_sha256sum` behaves exactly as the amended
description — blank lines skipped, each non-blank line split at the first
occurrence of two consecutive ASCII spaces when present (both sides
stripped), otherwise split into whitespace tokens keeping the first two,
lines with fewer than two tokens skipped silently, results in line
order. -/
theorem claim_C6_amended (text : String) :
    parse_sha256sum text = parse_sha256sum_amended text := by
  unfold parse_sha256sum parse_sha256sum_amended
  rw [parseLoop_eq_filterMap]
  rfl

/-! ## Claim C7 -/

theorem splitSlash_no_slash : ∀ (l : List Char), ∀ comp ∈ splitSlash l, ∀ c ∈ comp, c ≠ '/'
  | [], comp, hc, c, hcc => by
      simp only [splitSlash, List.mem_singleton] at hc
      subst hc
      simp at hcc
  | '/' :: cs, comp, hc, c, hcc => by
      rw [show splitSlash ('/' :: cs) = [] :: splitSlash cs from rfl] at hc
      rcases List.mem_cons.mp hc with rfl | hc2
      · simp at hcc
      · exact splitSlash_no_slash cs comp hc2 c hcc
  | a :: cs, comp, hc, c, hcc => by
      by_cases ha : a = '/'
      · subst ha
        rw [show splitSlash ('/' :: cs) = [] :: splitSlash cs from rfl] at hc
        rcases List.mem_cons.mp hc with rfl | hc2
        · simp at hcc
        · exact splitSlash_no_slash cs comp hc2 c hcc
      · rw [splitSlash.eq_def] at hc
        split at hc
        · rename_i heq
          exact absurd heq (by simp)
        · rename_i cs2 heq
          rw [List.cons.injEq] at heq
          exact absurd heq.1 ha
        · rename_i c2 cs2 hno heq
          injection heq with h1 h2
          subst h1
          subst h2
          rename_i hsplit
          cases hs : splitSlash cs with
          | nil => exact absurd hs (splitSlash_ne_nil cs)
          | cons r rs =>
              rw [hs] at hc
              rcases List.mem_cons.mp hc with rfl | hc2
              · rcases List.mem_cons.mp hcc with rfl | hcc2
                · exact ha
                · exact splitSlash_no_slash cs r (by rw [hs]; simp) c hcc2
              · exact splitSlash_no_slash cs comp (by rw [hs]; simp [hc2]) c hcc

theorem splitSlash_joinSep : ∀ comps : List (List Char), comps ≠ [] →
    (∀ comp ∈ comps, ∀ c ∈ comp, c ≠ '/') →
    splitSlash (joinSep ['/'] comps) = comps
  | [], hne, _ => absurd rfl hne
  | [x], _, h => by
      rw [joinSep, splitSlash_single x (h x (by simp))]
  | x :: y :: rest, _, h => by
      rw [joinSep]
      · rw [List.append_assoc, List.singleton_append,
          splitSlash_append x _ (h x (by simp)),
          splitSlash_joinSep (y :: rest) (by simp) (fun comp hc => h comp (by simp [hc]))]
      · simp

theorem head?_dropWhile_not (p : Char → Bool) :
    ∀ (l : List Char) (c : Char), ((l.dropWhile p).head? = some c) → p c = false
  | [], c, h => by simp at h
  | a :: l, c, h => by
      rw [List.dropWhile_cons] at h
      by_cases ha : p a = true
      · rw [if_pos ha] at h
        exact head?_dropWhile_not p l c h
      · rw [if_neg ha] at h
        simp only [List.head?_cons, Option.some.injEq] at h
        subst h
        simpa using ha

/-- Claim C7 is false as stated: `..` segments that underflow the joined
path survive normalization, so the result can still contain `..` and
escape the root. -/
theorem claim_C7_counterexample :
    normalize_zip_path ["payload", "..", "..", "x"] = "../x" ∧
      ['.', '.'] ∈ splitSlash ("../x" : String).data :=
  ⟨by decide, by decide⟩

/-- Claim C7 amended: the result never has a leading slash, for every
segment sequence; and whenever the joined components contain no `..` at
all and at least one normal component, no `.` or `..` segment remains in
the result. -/
theorem claim_C7_amended (parts : List String) :
    (normalize_zip_path parts).data.head? ≠ some '/' ∧
      ((∀ comp ∈ splitSlash (pjoin parts).data, comp ≠ ['.', '.']) →
        (∃ comp ∈ splitSlash (pjoin parts).data,
          (!comp.isEmpty && comp != ['.']) = true) →
        ∀ comp ∈ splitSlash (normalize_zip_path parts).data,
          comp ≠ [] ∧ comp ≠ ['.'] ∧ comp ≠ ['.', '.']) := by
  constructor
  · intro hh
    have := head?_dropWhile_not _ _ _ hh
    simp at this
  · intro hdd hex
    set s := pjoin parts with hsdef
    have hsne : s ≠ "" := by
      intro he
      obtain ⟨comp, hcm, hcp⟩ := hex
      rw [he] at hcm
      simp only [show (("" : String)).data = [] from rfl, splitSlash,
        List.mem_singleton] at hcm
      subst hcm
      simp at hcp
    set comps := splitSlash s.data with hcompsdef
    have hkeep : ∀ comp ∈ comps.filter (fun c => !c.isEmpty && c != ['.']),
        comp ≠ [] ∧ comp ≠ ['.'] ∧ comp ≠ ['.', '.'] := by
      intro comp hcm
      have hm := List.mem_of_mem_filter hcm
      have hf := List.of_mem_filter hcm
      simp only [Bool.and_eq_true, Bool.not_eq_true', List.isEmpty_eq_false,
        bne_iff_ne] at hf
      exact ⟨hf.1, hf.2, hdd comp hm⟩
    have hfilne : comps.filter (fun c => !c.isEmpty && c != ['.']) ≠ [] := by
      obtain ⟨comp, hcm, hcp⟩ := hex
      intro hnil
      have : comp ∈ comps.filter (fun c => !c.isEmpty && c != ['.']) :=
        List.mem_filter.mpr ⟨hcm, hcp⟩
      rw [hnil] at this
      simp at this
    have hslashfree : ∀ comp ∈ comps.filter (fun c => !c.isEmpty && c != ['.']),
        ∀ c ∈ comp, c ≠ '/' := by
      intro comp hcm
      exact splitSlash_no_slash s.data comp (List.mem_of_mem_filter hcm)
    -- normpath computes the filtered components
    have hnorm : normpath s = String.mk
        (List.replicate (if (s.data.head? == some '/') = true then
            (if s.data.take 2 = ['/', '/'] ∧ s.data.take 3 ≠ ['/', '/', '/'] then 2 else 1)
          else 0) '/'
          ++ joinSep ['/'] (comps.filter (fun c => !c.isEmpty && c != ['.']))) := by
      unfold normpath
      rw [if_neg hsne]
      simp only []
      rw [foldl_normStep_no_dotdot _ _ _ (fun c hc => hdd c hc), List.nil_append]
      rw [if_neg]
      intro habs
      have hd := congrArg String.data habs
      simp only [show ("" : String).data = [] from rfl] at hd
      rcases List.append_eq_nil.mp hd with ⟨h1, h2⟩
      cases hfc : comps.filter (fun c => !c.isEmpty && c != ['.']) with
      | nil => exact hfilne hfc
      | cons r rs =>
          rw [hfc] at h2
          cases rs with
          | nil =>
              rw [joinSep] at h2
              have := hkeep r (by rw [hfc]; simp)
              exact this.1 h2
          | cons r2 rs2 =>
              rw [joinSep] at h2
              · have := hkeep r (by rw [hfc]; simp)
                rcases List.append_eq_nil.mp (List.append_eq_nil.mp h2).1 with ⟨hr, _⟩
                exact this.1 hr
              · simp
    intro comp hcm
    rw [show normalize_zip_path parts = lstripSlash (normpath s) from rfl, hnorm] at hcm
    unfold lstripSlash at hcm
    rw [show (String.mk (List.replicate _ '/' ++ joinSep ['/']
        (comps.filter (fun c => !c.isEmpty && c != ['.'])))).data
      = List.replicate _ '/' ++ joinSep ['/']
          (comps.filter (fun c => !c.isEmpty && c != ['.'])) from rfl] at hcm
    rw [List.dropWhile_append] at hcm
    have hrep : (List.replicate (if (s.data.head? == some '/') = true then
          (if s.data.take 2 = ['/', '/'] ∧ s.data.take 3 ≠ ['/', '/', '/'] then 2 else 1)
        else 0) '/').dropWhile (fun c => c = '/') = [] := by
      apply List.dropWhile_eq_nil_iff.mpr
      intro c hc
      have := List.eq_of_mem_replicate hc
      simp [this]
    rw [hrep] at hcm
    simp only [List.isEmpty_nil, if_true] at hcm
    have hjoin : (joinSep ['/'] (comps.filter (fun c => !c.isEmpty && c != ['.']))).dropWhile
        (fun c => c = '/')
        = joinSep ['/'] (comps.filter (fun c => !c.isEmpty && c != ['.'])) := by
      apply dropWhile_id_of_head
      intro c hc
      cases hfc : comps.filter (fun c => !c.isEmpty && c != ['.']) with
      | nil => exact absurd hfc hfilne
      | cons r rs =>
          rw [hfc] at hc
          have hrne : r ≠ [] := (hkeep r (by rw [hfc]; simp)).1
          have hc2 : r.head? = some c := by
            cases rs with
            | nil => rw [joinSep] at hc; exact hc
            | cons r2 rs2 =>
                rw [joinSep] at hc
                · rw [List.append_assoc, List.head?_append_of_ne_nil _ hrne] at hc
                  exact hc
                · simp
          have hcr : c ∈ r := List.mem_of_mem_head? hc2
          have := hslashfree r (by rw [hfc]; simp) c hcr
          simp [this]
    rw [hjoin] at hcm
    rw [splitSlash_joinSep _ hfilne hslashfree] at hcm
    exact hkeep comp hcm

theorem claim_C7_witness :
    ((normalize_zip_path ["payload", "stems", "a/b.wav"]).data.head? ≠ some '/') ∧
      ((normalize_zip_path ["payload", "..", "..", "x"]).data.head? ≠ some '/') ∧
      (∀ comp ∈ splitSlash (normalize_zip_path ["payload", "stems", "a/b.wav"]).data,
        comp ≠ [] ∧ comp ≠ ['.'] ∧ comp ≠ ['.', '.']) :=
  ⟨(claim_C7_amended ["payload", "stems", "a/b.wav"]).1,
    (claim_C7_amended ["payload", "..", "..", "x"]).1,
    (claim_C7_amended ["payload", "stems", "a/b.wav"]).2 (by decide) (by decide)⟩

/-! ## Claim C8 -/

/-- A conversion input whose output path carries a foreign extension. -/
def optsC8 : ConvertOptions :=
  { audio_name := "song.wav", audio_bytes := "A", out_path := "song.zip",
    title := "", description := "", creation_mode := "human-directed-ai",
    tier := "SDA", author := "", contact := "", ownership_claim := true,
    ai_systems := [], apps := [], toolchain_notes := "",
    prompt := none, negative_prompt := none, lyrics := none,
    stems := none, persona := none, declaration := none, urls := [] }

/-- Claim C8 is false as stated: for an output path with a different
extension, `convert_aifm` does not append `.aifm` to the supplied path —
`with_suffix` replaces the existing extension. -/
theorem claim_C8_counterexample :
    (convert_aifm hashW optsC8 "T").out = "song.aifm" ∧
      ("song.aifm" : String) ≠ "song.zip" ++ ".aifm" :=
  ⟨by decide, by decide⟩

/-- Claim C8 amended: a path whose extension is already `.aifm`
(case-insensitively) is used unchanged; a path with no extension gets
`.aifm` appended; a path with any other extension has that extension
*replaced* by `.aifm`; the archive is written at the resulting path. -/
theorem claim_C8_amended (hash : String → String) (opts : ConvertOptions) (now : String)
    (_hname : pathName opts.out_path ≠ "") :
    (lowerStr (pathSuffix opts.out_path) = ".aifm" →
        (convert_aifm hash opts now).out = opts.out_path) ∧
      (pathSuffix opts.out_path = "" →
        (convert_aifm hash opts now).out = opts.out_path ++ ".aifm") ∧
      (lowerStr (pathSuffix opts.out_path) ≠ ".aifm" →
        (convert_aifm hash opts now).out
          = String.mk (opts.out_path.data.take
              (opts.out_path.data.length - (pathSuffix opts.out_path).data.length))
            ++ ".aifm") := by
  refine ⟨?_, ?_, ?_⟩
  · intro h
    show fixupOut opts.out_path = _
    unfold fixupOut
    rw [if_pos h]
  · intro h
    show fixupOut opts.out_path = _
    unfold fixupOut
    rw [if_neg (by rw [h]; decide)]
    unfold withSuffix
    rw [h]
    simp only [show ("" : String).data = [] from rfl, List.length_nil, Nat.sub_zero,
      List.take_length]
  · intro h
    show fixupOut opts.out_path = _
    unfold fixupOut
    rw [if_neg h]
    rfl

theorem claim_C8_witness :
    pathName optsC8.out_path ≠ "" ∧
      ((lowerStr (pathSuffix optsC8.out_path) = ".aifm" →
          (convert_aifm hashW optsC8 "T").out = optsC8.out_path) ∧
        (pathSuffix optsC8.out_path = "" →
          (convert_aifm hashW optsC8 "T").out = optsC8.out_path ++ ".aifm") ∧
        (lowerStr (pathSuffix optsC8.out_path) ≠ ".aifm" →
          (convert_aifm hashW optsC8 "T").out
            = String.mk (optsC8.out_path.data.take
                (optsC8.out_path.data.length - (pathSuffix optsC8.out_path).data.length))
              ++ ".aifm")) :=
  ⟨by decide, claim_C8_amended hashW optsC8 "T" (by decide)⟩

/-! ## Claim C2 -/

/-- A conversion input supplying exactly one of the two prompt files. -/
def optsC2 : ConvertOptions :=
  { audio_name := "song.wav", audio_bytes := "A", out_path := "out.aifm",
    title := "", description := "", creation_mode := "human-directed-ai",
    tier := "SDA", author := "", contact := "", ownership_claim := true,
    ai_systems := [], apps := [], toolchain_notes := "",
    prompt := some "P", negative_prompt := none, lyrics := none,
    stems := none, persona := none, declaration := none, urls := [] }

/-- Claim C2 is false as stated: when exactly one of the two prompt files
is supplied, the manifest's `prompt_refs` block carries an empty-string
placeholder for the absent one. -/
theorem claim_C2_counterexample :
    optsC2.prompt.isSome = true ∧ optsC2.negative_prompt = none ∧
      jlookup (build_manifest optsC2 "2024-01-01T00:00:00Z") "prompt_refs"
        = some (Json.obj [("prompt", Json.str "metadata/prompt/prompt.txt"),
                          ("negative_prompt", Json.str "")]) :=
  ⟨rfl, rfl, rfl⟩

theorem lookup_append_str (k : String) (l1 l2 : List (String × Json)) :
    List.lookup k (l1 ++ l2) = (List.lookup k l1).orElse (fun _ => List.lookup k l2) := by
  induction l1 with
  | nil => simp [List.lookup]
  | cons e t ih =>
      obtain ⟨k1, v1⟩ := e
      by_cases hk : (k == k1) = true
      · simp [List.lookup, hk]
      · simp only [Bool.not_eq_true] at hk
        simp [List.lookup, hk, ih]

theorem lookup_seg_ne (k k1 : String) (v : Json) (P : Prop) [Decidable P]
    (hne : (k == k1) = false) :
    List.lookup k (if P then [(k1, v)] else []) = none := by
  split <;> simp [List.lookup, hne]

theorem lookup_seg_eq (k : String) (v : Json) (P : Prop) [Decidable P] :
    List.lookup k (if P then [(k, v)] else []) = if P then some v else none := by
  split <;> simp [List.lookup]

/-- Claim C2 amended: each top-level optional manifest field
(`persona_ref`, `declaration`, `lyrics_ref`, `prompt_refs`,
`public_attestation`) appears exactly when the corresponding asset was
supplied, and `stems_included` is always present; but inside a present
`prompt_refs` block the reference for a supplied prompt is its canonical
path while the reference for an absent prompt is the empty-string
placeholder. -/
theorem claim_C2_amended (opts : ConvertOptions) (now : String) :
    ((jlookup (build_manifest opts now) "persona_ref").isSome = opts.persona.isSome) ∧
      ((jlookup (build_manifest opts now) "declaration").isSome = opts.declaration.isSome) ∧
      ((jlookup (build_manifest opts now) "lyrics_ref").isSome = opts.lyrics.isSome) ∧
      ((jlookup (build_manifest opts now) "prompt_refs").isSome
        = (opts.prompt.isSome || opts.negative_prompt.isSome)) ∧
      ((jlookup (build_manifest opts now) "public_attestation").isSome
        = decide (opts.urls ≠ [])) ∧
      (jlookup (build_manifest opts now) "stems_included"
        = some (Json.bool opts.stems.isSome)) ∧
      (opts.prompt.isSome || opts.negative_prompt.isSome →
        jlookup (build_manifest opts now) "prompt_refs"
          = some (Json.obj
              [("prompt", Json.str
                 (if opts.prompt.isSome then "metadata/prompt/prompt.txt" else "")),
               ("negative_prompt", Json.str
                 (if opts.negative_prompt.isSome then "metadata/prompt/negative_prompt.txt"
                  else ""))])) := by
  refine ⟨?_, ?_, ?_, ?_, ?_, ?_, ?_⟩
  · by_cases hu : opts.urls = [] <;> cases hper : opts.persona <;>
      simp [build_manifest, jlookup, List.lookup, lookup_append_str, lookup_seg_ne,
        lookup_seg_eq, Option.orElse, hu, hper]
  · by_cases hu : opts.urls = [] <;> cases hdec : opts.declaration <;>
      simp [build_manifest, jlookup, List.lookup, lookup_append_str, lookup_seg_ne,
        lookup_seg_eq, Option.orElse, hu, hdec]
  · by_cases hu : opts.urls = [] <;> cases hlyr : opts.lyrics <;>
      simp [build_manifest, jlookup, List.lookup, lookup_append_str, lookup_seg_ne,
        lookup_seg_eq, Option.orElse, hu, hlyr]
  · by_cases hu : opts.urls = [] <;> cases hp : opts.prompt <;>
      cases hn : opts.negative_prompt <;>
      simp [build_manifest, jlookup, List.lookup, lookup_append_str, lookup_seg_ne,
        lookup_seg_eq, Option.orElse, hu, hp, hn]
  · by_cases hu : opts.urls = [] <;>
      simp [build_manifest, jlookup, List.lookup, lookup_append_str, lookup_seg_ne,
        lookup_seg_eq, Option.orElse, hu]
  · simp [build_manifest, jlookup, List.lookup, lookup_append_str, lookup_seg_ne,
      lookup_seg_eq, Option.orElse]
  · intro hps
    simp [build_manifest, jlookup, List.lookup, lookup_append_str, lookup_seg_ne,
      lookup_seg_eq, Option.orElse, hps]

theorem claim_C2_witness :
    (optsC2.prompt.isSome || optsC2.negative_prompt.isSome) = true ∧
      jlookup (build_manifest optsC2 "2024-01-01T00:00:00Z") "prompt_refs"
        = some (Json.obj [("prompt", Json.str "metadata/prompt/prompt.txt"),
                          ("negative_prompt", Json.str "")]) :=
  ⟨by decide, (claim_C2_amended optsC2 "2024-01-01T00:00:00Z").2.2.2.2.2.2 (by decide)⟩

/-! ## Claim C5 -/

theorem joinLines_data_ne_nil (l : String) (ls : List String) (h : l.data ≠ []) :
    (joinLines (l :: ls)).data ≠ [] := by
  cases ls with
  | nil => exact h
  | cons l2 ls2 =>
      rw [joinLines]
      · simp only [data_append]
        intro he
        exact h (List.append_eq_nil.mp (List.append_eq_nil.mp he).1).1
      · simp

theorem joinLines_last_not_nl : ∀ lines : List String,
    (∀ l ∈ lines, l.data ≠ []) → (∀ l ∈ lines, l.data.getLast? ≠ some '\n') →
    (joinLines lines).data.getLast? ≠ some '\n'
  | [], _, _ => by simp [joinLines]
  | [l], _, hl => hl l (by simp)
  | l :: l2 :: ls, hne, hl => by
      rw [joinLines]
      · simp only [data_append]
        have hjne : (joinLines (l2 :: ls)).data ≠ [] :=
          joinLines_data_ne_nil l2 ls (hne l2 (by simp))
        rw [List.append_assoc, List.getLast?_append_of_ne_nil _ (by simp)]
        rw [List.getLast?_append_of_ne_nil _ hjne]
        exact joinLines_last_not_nl (l2 :: ls) (fun x hx => hne x (by simp [hx]))
          (fun x hx => hl x (by simp [hx]))
      · simp

theorem head_p_not_meta {p : String} (h : p.data.head? = some 'p') :
    p.data.take 9 ≠ ("metadata/" : String).data := by
  intro he
  cases hd : p.data with
  | nil => rw [hd] at h; simp at h
  | cons a t =>
      rw [hd] at h he
      simp only [List.head?_cons, Option.some.injEq] at h
      subst h
      simp at he

/-- Claim C5: the rendered ledger consists of exactly one line per payload
entry, sorted ascending by archive path, each line being the 64-character
lowercase-hex digest, two ASCII spaces, and the path, the whole text ending
in exactly one trailing newline; and the ledger produced by `convert_aifm`
(over its payload entry set) never references a path starting with
`metadata/` or equal to `README.txt`. -/
theorem claim_C5 (hash : String → String) (entries : List (String × String))
    (opts : ConvertOptions) (hhex : HexDigest hash) (hne : entries ≠ [])
    (hp : ∀ e ∈ entries, sanePathB e.1 = true) (hs : SaneInputs opts) :
    (make_checksums_payload_only hash entries
        = joinLines ((sortByPath entries).map (fun e => hash e.2 ++ "  " ++ e.1)) ++ "\n") ∧
      splitlinesL (make_checksums_payload_only hash entries).data
        = ((sortByPath entries).map (fun e => hash e.2 ++ "  " ++ e.1)).map String.data ∧
      (sortByPath entries).length = entries.length ∧
      List.Sorted (fun a b : String × String => lexLeB a.1.data b.1.data = true)
        (sortByPath entries) ∧
      (∀ e ∈ entries, (hash e.2).data.length = 64 ∧
        ∀ c ∈ (hash e.2).data, isLowerHex c = true) ∧
      (make_checksums_payload_only hash entries).data.getLast? = some '\n' ∧
      (make_checksums_payload_only hash entries).data.dropLast.getLast? ≠ some '\n' ∧
      (∀ pr ∈ parse_sha256sum
          (make_checksums_payload_only hash (payload_entries opts)),
        pr.2.data.take 9 ≠ ("metadata/" : String).data ∧ pr.2 ≠ "README.txt") := by
  have hd2 : ∀ e ∈ sortByPath entries, saneDigestB (hash e.2) = true :=
    fun e _ => hexDigest_sane hhex e.2
  have hp2 : ∀ e ∈ sortByPath entries, sanePathB e.1 = true :=
    fun e he => hp e ((sortByPath_perm entries).mem_iff.mp he)
  refine ⟨rfl, ?_, ?_, sortByPath_sorted entries, ?_, ?_, ?_, ?_⟩
  · cases hsrt : sortByPath entries with
    | nil =>
        exfalso
        have hperm := sortByPath_perm entries
        rw [hsrt] at hperm
        exact hne hperm.symm.eq_nil
    | cons e es =>
        rw [show make_checksums_payload_only hash entries
            = joinLines ((sortByPath entries).map (fun e => hash e.2 ++ "  " ++ e.1)) ++ "\n"
          from rfl, hsrt]
        apply splitlinesL_joinLines
        · intro l hl
          obtain ⟨x, hx, rfl⟩ := List.mem_map.mp hl
          rw [← hsrt] at hx
          exact renderLine_breakfree hash x (hd2 x hx) (hp2 x hx)
        · simp
  · exact (sortByPath_perm entries).length_eq
  · exact fun e _ => hhex e.2
  · rw [show make_checksums_payload_only hash entries
        = joinLines ((sortByPath entries).map (fun e => hash e.2 ++ "  " ++ e.1)) ++ "\n"
      from rfl]
    rw [data_append, show ("\n" : String).data = ['\n'] from rfl, List.getLast?_concat]
  · rw [show make_checksums_payload_only hash entries
        = joinLines ((sortByPath entries).map (fun e => hash e.2 ++ "  " ++ e.1)) ++ "\n"
      from rfl]
    rw [data_append, show ("\n" : String).data = ['\n'] from rfl, List.dropLast_concat]
    apply joinLines_last_not_nl
    · intro l hl
      obtain ⟨x, hx, rfl⟩ := List.mem_map.mp hl
      obtain ⟨hne2, _⟩ := saneDigestB_spec (hd2 x hx)
      simp only [data_append]
      intro habs
      exact hne2 (List.append_eq_nil.mp (List.append_eq_nil.mp habs).1).1
    · intro l hl
      obtain ⟨x, hx, rfl⟩ := List.mem_map.mp hl
      obtain ⟨hpne, _, _, hplast⟩ := sanePathB_spec (hp2 x hx)
      simp only [data_append]
      rw [List.append_assoc, List.getLast?_append_of_ne_nil _ (by
        intro habs
        exact hpne (List.append_eq_nil.mp habs).2)]
      rw [List.getLast?_append_of_ne_nil _ hpne]
      intro habs
      have := hplast '\n' habs
      simp [pyIsSpace, pySpaceChars] at this
  · intro pr hpr
    rw [parse_make hash (payload_entries opts)
      (fun e _ => hexDigest_sane hhex e.2) (payload_paths_sane opts hs)] at hpr
    obtain ⟨x, hx, rfl⟩ := List.mem_map.mp hpr
    have hxm : x ∈ payload_entries opts := (sortByPath_perm _).mem_iff.mp hx
    have hhead : x.1.data.head? = some 'p' := payload_path_head opts hs x hxm
    constructor
    · exact head_p_not_meta hhead
    · intro habs
      exact tailPath_ne_payload (show "README.txt" ∈ tailPaths by decide) hhead habs.symm

theorem claim_C5_witness :
    HexDigest hashW ∧ entriesW ≠ [] ∧ (∀ e ∈ entriesW, sanePathB e.1 = true) ∧
      SaneInputs optsW ∧
      ((make_checksums_payload_only hashW entriesW
          = joinLines ((sortByPath entriesW).map (fun e => hashW e.2 ++ "  " ++ e.1)) ++ "\n") ∧
        splitlinesL (make_checksums_payload_only hashW entriesW).data
          = ((sortByPath entriesW).map (fun e => hashW e.2 ++ "  " ++ e.1)).map String.data ∧
        (sortByPath entriesW).length = entriesW.length ∧
        List.Sorted (fun a b : String × String => lexLeB a.1.data b.1.data = true)
          (sortByPath entriesW) ∧
        (∀ e ∈ entriesW, (hashW e.2).data.length = 64 ∧
          ∀ c ∈ (hashW e.2).data, isLowerHex c = true) ∧
        (make_checksums_payload_only hashW entriesW).data.getLast? = some '\n' ∧
        (make_checksums_payload_only hashW entriesW).data.dropLast.getLast? ≠ some '\n' ∧
        (∀ pr ∈ parse_sha256sum
            (make_checksums_payload_only hashW (payload_entries optsW)),
          pr.2.data.take 9 ≠ ("metadata/" : String).data ∧ pr.2 ≠ "README.txt")) :=
  ⟨hashW_hex, by decide, by decide, by decide,
    claim_C5 hashW entriesW optsW hashW_hex (by decide) (by decide) (by decide)⟩

/-! ## Claim C3 -/

/-- Claim C3 is false as stated: `README.txt` also embeds the manifest's
creation timestamp, so two runs at different clock times differ in the
README entry's bytes as well, not only inside `metadata/manifest.json`. -/
theorem claim_C3_counterexample :
    zread (convert_aifm hashW optsW "2024-01-01T00:00:00Z").entries "README.txt"
        ≠ zread (convert_aifm hashW optsW "2025-06-15T12:00:00Z").entries "README.txt" ∧
      ("README.txt" : String) ≠ "metadata/manifest.json" :=
  ⟨by decide, by decide⟩

/-- Claim C3 amended: two runs of the write path on the same inputs at
different clock times produce archives with identical entry paths, in
which every entry other than `metadata/manifest.json` and `README.txt`
(both of which embed the `created_at` timestamp) has identical bytes, and
every entry's internal modification timestamp is the fixed constant
`(1980, 1, 1, 0, 0, 0)`. -/
theorem claim_C3_amended (hash : String → String) (opts : ConvertOptions)
    (t1 t2 : String) :
    ((convert_aifm hash opts t1).entries.map ZipEntry.path
        = (convert_aifm hash opts t2).entries.map ZipEntry.path) ∧
      ((convert_aifm hash opts t1).entries.filter
          (fun e => !(e.path == "metadata/manifest.json") && !(e.path == "README.txt"))
        = (convert_aifm hash opts t2).entries.filter
            (fun e => !(e.path == "metadata/manifest.json") && !(e.path == "README.txt"))) ∧
      (∀ t : String, ∀ e ∈ (convert_aifm hash opts t).entries,
        e.date_time = (1980, 1, 1, 0, 0, 0)) := by
  refine ⟨?_, ?_, ?_⟩
  · simp only [convert_aifm, tail_entries_eq, List.map_cons, List.map_append,
      show ∀ a d : String, (zip_write a d).path = a from fun _ _ => rfl]
  · simp only [convert_aifm, tail_entries_eq, List.filter_cons, List.filter_append,
      show ∀ a d : String, (zip_write a d).path = a from fun _ _ => rfl]
    norm_num
  · intro t e he
    rcases convert_mem he with ⟨pr, _, rfl⟩ | htail
    · rfl
    · rcases tail_mem hash opts t e htail with h | ⟨pv, _, data, h⟩ | h | h <;>
        subst h <;> rfl

theorem claim_C3_witness :
    ((convert_aifm hashW optsW "2024-01-01T00:00:00Z").entries.map ZipEntry.path
        = (convert_aifm hashW optsW "2025-06-15T12:00:00Z").entries.map ZipEntry.path) ∧
      (∀ e ∈ (convert_aifm hashW optsW "2024-01-01T00:00:00Z").entries,
        e.date_time = (1980, 1, 1, 0, 0, 0)) :=
  ⟨(claim_C3_amended hashW optsW "2024-01-01T00:00:00Z" "2025-06-15T12:00:00Z").1,
    (claim_C3_amended hashW optsW "2024-01-01T00:00:00Z" "2025-06-15T12:00:00Z").2.2
      "2024-01-01T00:00:00Z"⟩

/-! ## Claim C10 -/

theorem tail_paths_nodup (hash : String → String) (opts : ConvertOptions) (now : String) :
    ((tail_entries hash opts now).map ZipEntry.path).Nodup := by
  rw [tail_entries_eq]
  cases opts.prompt <;> cases opts.negative_prompt <;> cases opts.lyrics <;>
    cases opts.persona <;> cases opts.declaration <;>
    (simp only [opt_entry, List.map_cons, List.map_append, List.map_nil,
       show ∀ a d : String, (zip_write a d).path = a from fun _ _ => rfl,
       List.nil_append, List.cons_append, List.append_nil, List.singleton_append]
     decide)

/-- Claim C10: the archive-internal paths of all entries written by
`convert_aifm` (primary audio, stems, manifest, each supplied optional
text asset at its canonical path, the ledger, and the README) are pairwise
distinct — no path is written twice into the same archive. -/
theorem claim_C10 (hash : String → String) (opts : ConvertOptions) (now : String)
    (hs : SaneInputs opts) :
    ((convert_aifm hash opts now).entries.map ZipEntry.path).Nodup := by
  have hsp : List.map ZipEntry.path
      (List.map (fun e : String × String => zip_write e.1 e.2) (sortByPath (stems_files opts)))
      = (sortByPath (stems_files opts)).map Prod.fst := by
    rw [List.map_map]
    exact List.map_congr_left (fun e _ => rfl)
  have hpn := payload_paths_nodup opts hs
  unfold payload_entries at hpn
  rw [List.map_cons] at hpn
  obtain ⟨haudio_notmem, hstems_nodup⟩ := List.nodup_cons.mp hpn
  have hperm : ((sortByPath (stems_files opts)).map Prod.fst).Perm
      ((stems_files opts).map Prod.fst) := (sortByPath_perm (stems_files opts)).map Prod.fst
  have htailsub : ∀ q ∈ (tail_entries hash opts now).map ZipEntry.path, q ∈ tailPaths := by
    intro q hq
    obtain ⟨e, he, rfl⟩ := List.mem_map.mp hq
    exact tail_path_mem hash opts now e he
  simp only [convert_aifm, List.map_cons, List.map_append,
    show ∀ a d : String, (zip_write a d).path = a from fun _ _ => rfl]
  rw [List.nodup_cons]
  constructor
  · intro hmem
    rcases List.mem_append.mp hmem with hstem | htail
    · rw [hsp] at hstem
      have hstem2 : audio_zip_path opts ∈ (stems_files opts).map Prod.fst :=
        hperm.mem_iff.mp hstem
      exact haudio_notmem hstem2
    · have hq := htailsub _ htail
      have hhead : (audio_zip_path opts).data.head? = some 'p' :=
        payload_path_head opts hs (audio_zip_path opts, opts.audio_bytes)
          (by simp [payload_entries])
      exact tailPath_ne_payload hq hhead rfl
  · rw [List.nodup_append]
    refine ⟨?_, tail_paths_nodup hash opts now, ?_⟩
    · rw [hsp]
      exact hperm.nodup_iff.mpr hstems_nodup
    · intro p hp hq
      rw [hsp] at hp
      have hp2 : p ∈ (stems_files opts).map Prod.fst := hperm.mem_iff.mp hp
      obtain ⟨f, hf, rfl⟩ := List.mem_map.mp hp2
      have hhead : f.1.data.head? = some 'p' :=
        payload_path_head opts hs f (List.mem_cons_of_mem _ hf)
      exact tailPath_ne_payload (htailsub _ hq) hhead rfl

theorem claim_C10_witness :
    SaneInputs optsW ∧
      ((convert_aifm hashW optsW "2024-01-01T00:00:00Z").entries.map ZipEntry.path).Nodup :=
  ⟨by decide, claim_C10 hashW optsW "2024-01-01T00:00:00Z" (by decide)⟩

end AIFM
